import Mathlib

/-!
Verification of `slipcover/bytecode.py` (the offset-consistent multi-table
bytecode patcher), shallowly embedded in Lean 4.

Modelling conventions:

* Python integers are embedded as `Int` (or as `Nat` where the source value is
  a byte or a decoded unsigned quantity).  For a positive divisor `d`, Python's
  floor division `//` and floor modulus `%` agree with Lean's `Int./` (Euclidean
  division) and `Int.%`, so those are used directly.
* Byte strings / bytearrays are embedded as `List Nat` (each element a byte).
* Python `assert` failures and uncaught exceptions are embedded by returning
  `none` from an `Option`-valued function.
* The embedding fixes the CPython 3.11 encoding profile (the most featureful
  one: branch arguments are in instruction-word units, exception tables exist).
  Opcode numbers below are the CPython 3.11 values of the `dis` tables the
  source reads at import time.
* `dis`-derived per-opcode data (`dis._inline_cache_entries`, `dis.hasjrel`
  membership, `'JUMP_BACKWARD' in dis.opname[op]`) is interpreter data, not
  code of this repository; it is modelled as explicit parameters (`cache`,
  `isRel`, `isBack`, `cacheOf`) at the points where the source consults it.
-/

/-- CPython 3.11 opcode number for `EXTENDED_ARG` (`dis.EXTENDED_ARG`). -/
def op_EXTENDED_ARG : Nat := 144

/-- CPython 3.11 opcode number for the specialized `EXTENDED_ARG_QUICK`
(from `dis._all_opmap`). -/
def op_EXTENDED_ARG_QUICK : Nat := 169

/-- The list `is_EXTENDED_ARG` built at import time (3.11 branch: both the
plain and the quickened extended-arg opcodes). -/
def is_EXTENDED_ARG : List Nat := [op_EXTENDED_ARG, op_EXTENDED_ARG_QUICK]

/-- CPython 3.11 `dis.opmap["LOAD_CONST"]`. -/
def op_LOAD_CONST : Nat := 100

/-- CPython 3.11 `dis.opmap["LOAD_GLOBAL"]`. -/
def op_LOAD_GLOBAL : Nat := 116

/-- CPython 3.11 `dis.opmap["PUSH_NULL"]`. -/
def op_PUSH_NULL : Nat := 2

/-- CPython 3.11 `dis.opmap["PRECALL"]`. -/
def op_PRECALL : Nat := 166

/-- CPython 3.11 `dis.opmap["CALL"]`. -/
def op_CALL : Nat := 171

/-- CPython 3.11 `dis.opmap["CACHE"]`. -/
def op_CACHE : Nat := 0

/-- CPython 3.11 `dis.opmap["POP_TOP"]`. -/
def op_POP_TOP : Nat := 1

/-- CPython 3.11 `dis.opmap["JUMP_FORWARD"]`. -/
def op_JUMP_FORWARD : Nat := 110

/-- CPython 3.11 `dis.opmap["NOP"]`. -/
def op_NOP : Nat := 9

/-- Python's `int.bit_length()` for a non-negative value. -/
def bit_length (n : Nat) : Nat := if n = 0 then 0 else Nat.log2 n + 1

/-- `offset2branch` (Python ≥ 3.10 branch): asserts the offset is even and
divides by two.  The assertion failure is modelled as `none`. -/
def offset2branch (offset : Int) : Option Int :=
  if offset % 2 = 0 then some (offset / 2) else none

/-- `branch2offset` (Python ≥ 3.10 branch): scales an instruction-word
argument back to a byte offset. -/
def branch2offset (arg : Int) : Int := arg * 2

/-- `arg_ext_needed(arg)`: the number of `EXTENDED_ARG`s needed for an
argument.  Python's `(arg.bit_length() - 1) // 8` — note that this is `-1`
for `arg = 0` (floor division of `-1` by `8`), and that Python's
`bit_length` of a negative integer is the bit length of its absolute value. -/
def arg_ext_needed (arg : Int) : Int := ((bit_length arg.natAbs : Int) - 1) / 8

/-- `append_varint(data, n)`: appends a little-endian variable-length
unsigned integer to `data` in 6-bit chunks, least significant first, with
continuation flag `0x40` on all but the last chunk. -/
def append_varint (data : List Nat) (n : Nat) : List Nat :=
  if h : n > 0x3f then append_varint (data ++ [0x40 ||| (n &&& 0x3f)]) (n >>> 6)
  else data ++ [n]
termination_by n
decreasing_by simp only [Nat.shiftRight_eq_div_pow]; omega

/-- `append_svarint(data, n)`: zig-zag maps a signed integer and appends it
with `append_varint`. -/
def append_svarint (data : List Nat) (n : Int) : List Nat :=
  append_varint data (if n < 0 then ((-n) * 2 + 1).toNat else (n * 2).toNat)

/-- The chunk-emitting loop of `write_varint_be`:
`for shift in range(start, 0, -6): data.append(0x40 | ((n >> shift) & 0x3f))`.
`shift` descends from `start` in steps of 6 while positive. -/
def writeChunksBE (n : Int) (shift : Nat) : List Nat :=
  if h : shift = 0 then []
  else (0x40 ||| ((n / 2 ^ shift % 64).toNat)) :: writeChunksBE n (shift - 6)
termination_by shift
decreasing_by omega

/-- `write_varint_be(n, mark_first)`: encodes a big-endian variable-length
unsigned integer in 6-bit chunks, most significant first, continuation flag
`0x40` on all but the last chunk; if `markFirst` is nonzero it is OR-ed into
the first emitted byte.  Python's `top_bit - top_bit % 6` is `-6` when
`n = 0` (so the chunk loop is empty); the `toNat` coercion reproduces that
empty range. -/
def write_varint_be (n : Int) (markFirst : Nat) : List Nat :=
  let top_bit : Int := (bit_length n.natAbs : Int) - 1
  let start : Nat := (top_bit - top_bit % 6).toNat
  let data : List Nat := writeChunksBE n start ++ [(n % 64).toNat]
  if markFirst ≠ 0 then
    match data with
    | [] => []
    | h :: t => (h ||| markFirst) :: t
  else data

/-- The accumulator loop of `read_varint_be`: `while (b := next(it)) & 0x40:
value |= b & 0x3f; value <<= 6`, then `value |= b & 0x3f`.  Exhaustion of the
iterator (`StopIteration`) is `none`. -/
def readVarintGo (value : Nat) : List Nat → Option (Nat × List Nat)
  | [] => none
  | b :: rest =>
    if b &&& 0x40 ≠ 0 then readVarintGo ((value ||| (b &&& 0x3f)) <<< 6) rest
    else some (value ||| (b &&& 0x3f), rest)

/-- `read_varint_be(it)`: decodes a big-endian variable-length unsigned
integer, returning the value and the unconsumed rest of the byte stream. -/
def read_varint_be (bs : List Nat) : Option (Nat × List Nat) := readVarintGo 0 bs

/-- Modelled from the spec: the little-endian variable-length-integer decoder
(the counterpart of `append_varint`) is not part of this source file.  Per
§4.1, chunks are 6-bit, least-significant first, with continuation flag
`0x40` set on all but the last chunk. -/
def read_varint_le : List Nat → Option (Nat × List Nat)
  | [] => none
  | b :: rest =>
    if b &&& 0x40 ≠ 0 then
      (read_varint_le rest).map (fun vr => ((b &&& 0x3f) ||| (vr.1 <<< 6), vr.2))
    else some (b &&& 0x3f, rest)

/-- `opcode_arg(opcode, arg, min_ext)`: emits an opcode and its
variable-length argument.  `cache` stands for the interpreter table lookup
`dis._inline_cache_entries[opcode]` (3.11 branch); the `assert ext <= 3` is
modelled as `none`. -/
def opcode_arg (opcode : Nat) (arg : Int) (min_ext : Int) (cache : Nat) : Option (List Nat) :=
  let ext : Int := max (arg_ext_needed arg) min_ext
  if ext ≤ 3 then
    some ((List.range ext.toNat).flatMap
            (fun i => [op_EXTENDED_ARG, (arg / 2 ^ ((ext.toNat - i) * 8) % 256).toNat])
          ++ [opcode, (arg % 256).toNat]
          ++ (List.replicate cache [op_CACHE, 0]).flatten)
  else none

/-- The inner loop of `unpack_opargs` that skips the `CACHE` filler words
following an instruction (3.11 branch):
`while off+2 < len(code) and code[off+2] == op_CACHE: off += 2`. -/
def skipCaches (code : List Nat) (off : Nat) : Nat :=
  if h : off + 2 < code.length ∧ code.getD (off + 2) 0 = op_CACHE then
    skipCaches code (off + 2)
  else off
termination_by code.length - off
decreasing_by omega

/-- `skipCaches` only moves forward; this justifies termination of the
decoder below. -/
theorem skipCaches_ge (code : List Nat) (off : Nat) : off ≤ skipCaches code off := by
  rw [skipCaches]
  split
  · exact le_trans (by omega) (skipCaches_ge code (off + 2))
  · exact le_refl off
termination_by code.length - off
decreasing_by omega

/-- The body of the `unpack_opargs` generator: walks `code` two bytes at a
time, folding `EXTENDED_ARG` prefixes into an accumulator and skipping
trailing `CACHE` words; yields `(offset, length, opcode, argument)` tuples.
Reading past the end of the byte string (`IndexError`) is `none`. -/
def unpackFrom (code : List Nat) (ext_arg next_off off : Nat) :
    Option (List (Nat × Nat × Nat × Nat)) :=
  if h : off < code.length then
    if hh : off + 1 < code.length then
      if code.getD off 0 ∈ is_EXTENDED_ARG then
        unpackFrom code ((ext_arg ||| code.getD (off + 1) 0) <<< 8) next_off (off + 2)
      else
        let off2 := skipCaches code off
        (unpackFrom code 0 (off2 + 2) (off2 + 2)).map
          (fun rest =>
            (next_off, off2 + 2 - next_off, code.getD off 0,
             ext_arg ||| code.getD (off + 1) 0) :: rest)
    else none
  else some []
termination_by code.length - off
decreasing_by
  · omega
  · have := skipCaches_ge code off
    omega

/-- `unpack_opargs(code)`: the decoded instruction sequence, materialized. -/
def unpack_opargs (code : List Nat) : Option (List (Nat × Nat × Nat × Nat)) :=
  unpackFrom code 0 0 0

/-- A `Branch` object: one jump instruction.  `is_relative` and
`is_backward` are computed by the source from the interpreter tables
(`opcode in dis.hasjrel`, `'JUMP_BACKWARD' in dis.opname[opcode]`). -/
structure Branch where
  offset : Int
  length : Int
  opcode : Nat
  is_relative : Bool
  is_backward : Bool
  target : Int
  deriving DecidableEq

/-- `Branch.__init__`: resolves the argument into an absolute byte-offset
target.  `isRel`/`isBack` stand for the interpreter-table lookups. -/
def Branch.init (offset length : Int) (opcode : Nat) (isRel isBack : Bool) (arg : Int) :
    Branch :=
  { offset := offset, length := length, opcode := opcode,
    is_relative := isRel, is_backward := isBack,
    target :=
      if ¬isRel then branch2offset arg
      else offset + length + branch2offset (if isBack then -arg else arg) }

/-- `Branch.arg()`: re-derives this branch's opcode argument from
`offset`, `length` and `target` (the inverse of construction). -/
def Branch.arg (b : Branch) : Option Int :=
  if b.is_relative then offset2branch |b.target - (b.offset + b.length)|
  else offset2branch b.target

/-- `Branch.adjust(insert_offset, insert_length)`: shifts this branch after
a code insertion. -/
def Branch.adjust (b : Branch) (insert_offset insert_length : Int) : Branch :=
  { b with
    offset := if b.offset ≥ insert_offset then b.offset + insert_length else b.offset,
    target := if b.target > insert_offset then b.target + insert_length else b.target }

/-- `Branch.adjust_length()`: grows this branch's encoded length if its
current argument needs more `EXTENDED_ARG`s; returns the growth amount and
the updated branch.  A failure of the assertion inside `offset2branch`
(odd distance) is `none`. -/
def Branch.adjust_length (b : Branch) : Option (Int × Branch) :=
  match b.arg with
  | none => none
  | some a =>
    let length_needed := 2 + 2 * arg_ext_needed a
    let change := max 0 (length_needed - b.length)
    if change ≠ 0 then
      some (change,
        { b with
          target := if b.target > b.offset then b.target + change else b.target,
          length := length_needed })
    else some (0, b)

/-- `Branch.code()`: emits this branch's bytes, forcing
`(length - 2) // 2` extension prefixes.  The leading `assert` is `none` on
failure; `cache` stands for `dis._inline_cache_entries[opcode]`. -/
def Branch.code (b : Branch) (cache : Nat) : Option (List Nat) :=
  match b.arg with
  | none => none
  | some a =>
    if b.length ≥ 2 + 2 * arg_ext_needed a then
      opcode_arg b.opcode a ((b.length - 2) / 2) cache
    else none

/-- An entry of the Python 3.11+ exception table.  The Python attribute
`end` is called `endOff` here (`end` is a Lean keyword). -/
structure ExceptionTableEntry where
  start : Int
  endOff : Int
  target : Int
  other : Int
  deriving DecidableEq

/-- `ExceptionTableEntry.adjust(insert_offset, insert_length)`: non-strict
comparison for `start`, strict for `end` and `target`. -/
def ExceptionTableEntry.adjust (e : ExceptionTableEntry)
    (insert_offset insert_length : Int) : ExceptionTableEntry :=
  { start := if insert_offset ≤ e.start then e.start + insert_length else e.start,
    endOff := if insert_offset < e.endOff then e.endOff + insert_length else e.endOff,
    target := if insert_offset < e.target then e.target + insert_length else e.target,
    other := e.other }

/-- Each successful `read_varint_be` consumes at least one byte; this
justifies termination of the exception-table decode loop. -/
theorem readVarintGo_length {v : Nat} {bs : List Nat} {x : Nat} {r : List Nat}
    (h : readVarintGo v bs = some (x, r)) : r.length < bs.length := by
  induction bs generalizing v with
  | nil => simp [readVarintGo] at h
  | cons b rest ih =>
    rw [readVarintGo] at h
    split at h
    · exact Nat.lt_trans (ih h) (by simp)
    · simp at h
      simp [← h.2]

/-- One iteration of the decode loop of `ExceptionTableEntry.from_code`:
reads one record's four big-endian varints (`start`, `length`, `target`,
`other`), scaling the first three through `branch2offset` and computing
`end = start + length`; `none` when the iterator is exhausted
(`StopIteration`) inside the record. -/
def readETRecord (bs : List Nat) : Option (ExceptionTableEntry × List Nat) := do
  let (s, r1) ← read_varint_be bs
  let (l, r2) ← read_varint_be r1
  let (t, r3) ← read_varint_be r2
  let (o, r4) ← read_varint_be r3
  pure ({ start := branch2offset s, endOff := branch2offset s + branch2offset l,
          target := branch2offset t, other := (o : Int) }, r4)

/-- A successful `readETRecord` consumes at least one byte. -/
theorem readETRecord_length {bs : List Nat} {e : ExceptionTableEntry} {r : List Nat}
    (h : readETRecord bs = some (e, r)) : r.length < bs.length := by
  rw [readETRecord] at h
  cases h1 : read_varint_be bs with
  | none => rw [h1] at h; exact absurd h (by simp)
  | some p1 =>
    rw [h1] at h
    cases h2 : read_varint_be p1.2 with
    | none => simp [h2] at h
    | some p2 =>
      cases h3 : read_varint_be p2.2 with
      | none => simp [h2, h3] at h
      | some p3 =>
        cases h4 : read_varint_be p3.2 with
        | none => simp [h2, h3, h4] at h
        | some p4 =>
          simp only [h2, h3, h4, Option.bind_eq_bind, Option.some_bind,
            Option.pure_def, Option.some.injEq, Prod.mk.injEq] at h
          have a1 := readVarintGo_length h1
          have a2 := readVarintGo_length h2
          have a3 := readVarintGo_length h3
          have a4 := readVarintGo_length h4
          have hr4' : p4.2.length = r.length := by rw [h.2]
          omega

/-- The decode loop of `ExceptionTableEntry.from_code`: reads records until
the iterator is exhausted (`StopIteration` anywhere in a record ends the
loop and returns the entries read so far). -/
def etFromBytes (bs : List Nat) : List ExceptionTableEntry :=
  match h : readETRecord bs with
  | none => []
  | some (e, r) => e :: etFromBytes r
termination_by bs.length
decreasing_by
  exact readETRecord_length h

/-- `ExceptionTableEntry.from_code(code)`: decodes `co_exceptiontable`. -/
def ExceptionTableEntry.fromTable (exceptiontable : List Nat) : List ExceptionTableEntry :=
  etFromBytes exceptiontable

/-- `ExceptionTableEntry.make_exceptiontable(entries)`: re-encodes each entry
in order as four big-endian varints, the first byte of each record marked
`0x80` (the `for e in entries: table.extend(...)` loop rendered as
recursion). -/
def ExceptionTableEntry.make_exceptiontable : List ExceptionTableEntry → Option (List Nat)
  | [] => some []
  | e :: rest => do
    let s ← offset2branch e.start
    let l ← offset2branch (e.endOff - e.start)
    let t ← offset2branch e.target
    let tl ← ExceptionTableEntry.make_exceptiontable rest
    pure (write_varint_be s 0x80 ++ (write_varint_be l 0 ++ (write_varint_be t 0
          ++ (write_varint_be e.other 0 ++ tl))))

/-- A `LineEntry`: one source-line span.  The Python attribute `end` is
called `endOff` here (`end` is a Lean keyword); `number is None` is
`number = none`. -/
structure LineEntry where
  start : Int
  endOff : Int
  number : Option Int
  deriving DecidableEq

/-- `LineEntry.adjust(insert_offset, insert_length)`: both bounds shift
only when strictly greater than the insertion offset. -/
def LineEntry.adjust (l : LineEntry) (insert_offset insert_length : Int) : LineEntry :=
  { l with
    start := if l.start > insert_offset then l.start + insert_length else l.start,
    endOff := if l.endOff > insert_offset then l.endOff + insert_length else l.endOff }

/-- The `while bytecodes > 0` loop of `make_positions` for a span with no
line attributed (run kind 15). -/
def emitNoLineRuns (bytecodes : Int) : List Nat :=
  if h : bytecodes > 0 then
    (0x80 ||| (15 <<< 3) ||| (min bytecodes 8 - 1).toNat) :: emitNoLineRuns (bytecodes - 8)
  else []
termination_by bytecodes.toNat
decreasing_by omega

/-- The `while bytecodes > 0` loop of `make_positions` for a line-attributed
span (run kind 13): each run byte is followed by the signed varint of the
line delta, which is zeroed after the first run. -/
def emitLineRuns (bytecodes : Int) (line_delta : Int) : List Nat :=
  if h : bytecodes > 0 then
    ((0x80 ||| (13 <<< 3) ||| (min bytecodes 8 - 1).toNat) :: append_svarint [] line_delta)
      ++ emitLineRuns (bytecodes - 8) 0
  else []
termination_by bytecodes.toNat
decreasing_by omega

/-- `LineEntry.make_positions(firstlineno, lines)`: the Python 3.11+
positions table. -/
def LineEntry.make_positions (firstlineno : Int) (lines : List LineEntry) : List Nat :=
  (lines.foldl
    (fun (st : List Nat × Int × Int) l =>
      let (linetable, prev_end, prev_number) := st
      match l.number with
      | none =>
        (linetable ++ emitNoLineRuns ((l.endOff - prev_end) / 2), l.endOff, prev_number)
      | some num =>
        let gaps := if prev_end < l.start then emitNoLineRuns ((l.start - prev_end) / 2) else []
        (linetable ++ gaps ++ emitLineRuns ((l.endOff - l.start) / 2) (num - prev_number),
         l.endOff, num))
    ([], 0, firstlineno)).1

/-- Opaque stand-in for a Python constant-pool value. -/
abbrev PyVal := Int

/-- The immutable function representation (`types.CodeType`), restricted to
the fields the editor reads or replaces. -/
structure CodeObj where
  co_code : List Nat
  co_names : List String
  co_consts : List PyVal
  co_firstlineno : Int
  co_stacksize : Int
  co_linetable : List Nat
  co_exceptiontable : List Nat
  deriving DecidableEq

/-- The `Editor`'s mutable state. -/
structure Editor where
  orig_code : CodeObj
  consts : List PyVal
  branches : List Branch
  ex_table : List ExceptionTableEntry
  lines : List LineEntry
  patch : List Nat
  max_addtl_stack : Int
  finished : Bool
  deriving DecidableEq

/-- `Editor.add_const(value)`: appends to the constant pool and returns the
new value's index. -/
def Editor.add_const (ed : Editor) (value : PyVal) : Editor × Nat :=
  ({ ed with consts := ed.consts ++ [value] }, ed.consts.length)

/-- Python list/bytearray slice-index normalization: negative indices count
from the end, and the result is clamped to `[0, len]`. -/
def pySliceIndex (len : Nat) (i : Int) : Nat :=
  min ((if i < 0 then i + len else i).toNat) len

/-- Python slice assignment `xs[start:stop] = repl` (an insertion when the
normalized slice is empty). -/
def pySliceReplace (xs : List Nat) (start stop : Int) (repl : List Nat) : List Nat :=
  let s := pySliceIndex xs.length start
  let e := max s (pySliceIndex xs.length stop)
  xs.take s ++ repl ++ xs.drop e

/-- `Editor.replace_global_with_const(global_name, const_index)` (3.11
branch): rewrites every `LOAD_GLOBAL` of the named global in the current
patch buffer into a constant load (with a `PUSH_NULL` when the original
argument's low bit was set), re-adjusting all side structures by the length
delta as it goes.  `cacheOf` stands for `dis._inline_cache_entries`. -/
def Editor.replace_global_with_const (cacheOf : Nat → Nat) (ed : Editor)
    (global_name : String) (const_index : Int) : Option Editor :=
  if global_name ∈ ed.orig_code.co_names then
    let name_index := ed.orig_code.co_names.indexOf global_name
    match unpack_opargs ed.patch with
    | none => none
    | some ops =>
      let load_globals := ops.filter
        (fun t => t.2.2.1 == op_LOAD_GLOBAL && (t.2.2.2 >>> 1) == name_index)
      (load_globals.foldlM
        (fun (st : Editor × Int) t => do
          let (e, delta) := st
          let (op_off, op_len, _op, op_arg) : Nat × Nat × Nat × Nat := t
          let pushNull ←
            if op_arg &&& 1 = 1 then opcode_arg op_PUSH_NULL 0 0 (cacheOf op_PUSH_NULL)
            else pure []
          let loadConst ← opcode_arg op_LOAD_CONST const_index 0 (cacheOf op_LOAD_CONST)
          let repl := pushNull ++ loadConst
          let shifted_off : Int := (op_off : Int) + delta
          let patch2 := pySliceReplace e.patch shifted_off (shifted_off + op_len) repl
          let change : Int := (repl.length : Int) - op_len
          let e2 : Editor :=
            if change ≠ 0 then
              { e with
                patch := patch2,
                lines := e.lines.map (fun (l : LineEntry) => l.adjust shifted_off change),
                branches := e.branches.map (fun (b : Branch) => b.adjust shifted_off change),
                ex_table := e.ex_table.map
                  (fun (x : ExceptionTableEntry) => x.adjust shifted_off change) }
            else { e with patch := patch2 }
          pure (e2, delta + change))
        (ed, 0)).map Prod.fst
  else some ed

/-- CPython 3.11 `dis.HAVE_ARGUMENT`. -/
def op_HAVE_ARGUMENT : Nat := 90

/-- `calc_max_stack(code)`: maximum stack depth under straight-line
execution.  `stackEffect` stands for the interpreter's
`dis.stack_effect(op, arg-or-None)` table. -/
def calc_max_stack (stackEffect : Nat → Option Int → Int) (code : List Nat) :
    Option Int :=
  (unpack_opargs code).map (fun ops =>
    (ops.foldl
      (fun (st : Int × Int) t =>
        let stack := st.1 + stackEffect t.2.2.1
          (if t.2.2.1 ≥ op_HAVE_ARGUMENT then some (t.2.2.2 : Int) else none)
        (stack, max stack st.2))
      (0, 0)).2)

/-- The `for a in args: insert.extend(opcode_arg(op_LOAD_CONST, a))` loop of
`insert_function_call`. -/
def loadConstArgs (cacheOf : Nat → Nat) : List Int → Option (List Nat)
  | [] => some []
  | a :: as => do
    let x ← opcode_arg op_LOAD_CONST a 0 (cacheOf op_LOAD_CONST)
    let r ← loadConstArgs cacheOf as
    pure (x ++ r)

/-- `Editor.insert_function_call(offset, function, args)` (3.11 branch):
builds the `NOP`/`PUSH_NULL`/`LOAD_CONST*`/`PRECALL`/`CALL`/`POP_TOP`
sequence, patches its deinstrument-jump byte (`insert[1]`, a bytearray item
assignment that fails above 255), folds the sequence's stack need into
`max_addtl_stack`, splices it into the patch at `offset`, and adjusts every
line, branch and exception entry.  Returns the inserted length.
`cacheOf`/`stackEffect` stand for the interpreter tables. -/
def Editor.insert_function_call (cacheOf : Nat → Nat)
    (stackEffect : Nat → Option Int → Int) (ed : Editor) (offset : Int)
    (function : Int) (args : List Int) : Option (Int × Editor) := do
  let loadf ← opcode_arg op_LOAD_CONST function 0 (cacheOf op_LOAD_CONST)
  let loadargs ← loadConstArgs cacheOf args
  let precall ← opcode_arg op_PRECALL (args.length : Int) 0 (cacheOf op_PRECALL)
  let call ← opcode_arg op_CALL (args.length : Int) 0 (cacheOf op_CALL)
  let insert0 := [op_NOP, 0, op_PUSH_NULL, 0] ++ loadf ++ loadargs
    ++ precall ++ call ++ [op_POP_TOP, 0]
  let len_insert : Int := insert0.length
  let jump ← offset2branch (len_insert - 2)
  if 0 ≤ jump ∧ jump ≤ 255 then
    let insert1 := insert0.set 1 jump.toNat
    match calc_max_stack stackEffect insert1 with
    | none => none
    | some addtl =>
      some (len_insert,
        { ed with
          max_addtl_stack := max ed.max_addtl_stack addtl,
          patch := pySliceReplace ed.patch offset offset insert1,
          lines := ed.lines.map (fun l => l.adjust offset len_insert),
          branches := ed.branches.map (fun b => b.adjust offset len_insert),
          ex_table := ed.ex_table.map (fun e => e.adjust offset len_insert) })
  else none

/-- Python indexing `xs[i]` on a bytearray: negative indices count from the
end; out of range raises (`none`). -/
def pyIndex (xs : List Nat) (i : Int) : Option Nat :=
  let j : Int := if i < 0 then i + xs.length else i
  if 0 ≤ j ∧ j < (xs.length : Int) then some (xs.getD j.toNat 0) else none

/-- One full `for b in self.branches` pass of the fixed-point loop in
`Editor.finish`, from index `i` on: branch `i` may grow, in which case
zero filler is spliced into the patch at its offset and every *other*
branch plus all line and exception entries are adjusted.  `adjusted`
accumulates `any_adjusted`. -/
def finishInner (ed : Editor) (i : Nat) (adjusted : Bool) : Option (Editor × Bool) :=
  if h : i < ed.branches.length then
    let b := ed.branches.get ⟨i, h⟩
    match b.adjust_length with
    | none => none
    | some (change, b2) =>
      if change ≠ 0 then
        let ed' : Editor :=
          { ed with
            patch := pySliceReplace ed.patch b.offset b.offset (List.replicate change.toNat 0),
            branches := (ed.branches.set i b2).mapIdx
              (fun j c => if j = i then c else c.adjust b.offset change),
            lines := ed.lines.map (fun l => l.adjust b.offset change),
            ex_table := ed.ex_table.map (fun e => e.adjust b.offset change) }
        finishInner ed' (i + 1) true
      else finishInner ed (i + 1) adjusted
  else some (ed, adjusted)
termination_by ed.branches.length - i
decreasing_by
  · simp only [List.length_mapIdx, List.length_set]; omega
  · omega

/-- Outcome of the `while any_adjusted` loop of `Editor.finish`: the stable
state, a Python exception, or exhaustion of the fuel bound. -/
inductive LoopResult where
  | out (ed : Editor)
  | exc
  | fuelOut
  deriving DecidableEq

/-- The `while any_adjusted` loop of `Editor.finish`, with an explicit fuel
bound on the number of iterations. -/
def finishLoop : Nat → Editor → LoopResult
  | 0, _ => .fuelOut
  | fuel + 1, ed =>
    match finishInner ed 0 false with
    | none => .exc
    | some (ed', true) => finishLoop fuel ed'
    | some (ed', false) => .out ed'

/-- The write-back pass at the end of `Editor.finish`: for each branch,
assert that the byte at `offset + length - 2` is still its opcode, then
overwrite its slice of the patch with its re-encoded bytes. -/
def writeBranches (cacheOf : Nat → Nat) (patch : List Nat) : List Branch → Option (List Nat)
  | [] => some patch
  | b :: rest =>
    match pyIndex patch (b.offset + b.length - 2) with
    | none => none
    | some byte =>
      if byte = b.opcode then
        match b.code (cacheOf b.opcode) with
        | none => none
        | some bs => writeBranches cacheOf (pySliceReplace patch b.offset (b.offset + b.length) bs) rest
      else none

/-- Outcome of `Editor.finish`: the new code object and the editor's final
state, a Python exception (assertion failure), or fuel exhaustion of the
inner fixed-point loop. -/
inductive FinishResult where
  | ok (code : CodeObj) (ed : Editor)
  | err
  | fuelOut
  deriving DecidableEq

/-- `Editor.finish()` (3.11 branch): asserts the editor is not already
finished, runs the branch-growth fixed point, writes every branch's bytes
back, re-encodes the positions and exception tables, marks the editor
finished, and emits the rewritten code object. -/
def Editor.finish (cacheOf : Nat → Nat) (fuel : Nat) (ed : Editor) : FinishResult :=
  if ed.finished then .err
  else
    match finishLoop fuel ed with
    | .fuelOut => .fuelOut
    | .exc => .err
    | .out ed1 =>
      match writeBranches cacheOf ed1.patch ed1.branches with
      | none => .err
      | some patch2 =>
        match ExceptionTableEntry.make_exceptiontable ed1.ex_table with
        | none => .err
        | some extable =>
          .ok
            { ed1.orig_code with
              co_code := patch2,
              co_stacksize := ed1.orig_code.co_stacksize + ed1.max_addtl_stack,
              co_consts := ed1.consts,
              co_linetable := LineEntry.make_positions ed1.orig_code.co_firstlineno ed1.lines,
              co_exceptiontable := extable }
            { ed1 with patch := patch2, finished := true }

/-- C1: after `ExceptionTableEntry.adjust(insert_offset, insert_length)`
with `insert_length ≥ 0`, `start` is shifted by `insert_length` exactly when
`insert_offset ≤ start` (non-strict), while `end` and `target` are shifted
exactly when the comparison is strict; for positive insertions the shifts
are characterized by the corresponding iffs. -/
theorem exceptionTable_adjust_boundary (e : ExceptionTableEntry) (io il : Int)
    (hil : 0 ≤ il) :
    ((e.adjust io il).start = if io ≤ e.start then e.start + il else e.start)
    ∧ ((e.adjust io il).endOff = if io < e.endOff then e.endOff + il else e.endOff)
    ∧ ((e.adjust io il).target = if io < e.target then e.target + il else e.target)
    ∧ (0 < il →
        (((e.adjust io il).start = e.start + il ↔ io ≤ e.start)
         ∧ ((e.adjust io il).endOff = e.endOff + il ↔ io < e.endOff)
         ∧ ((e.adjust io il).target = e.target + il ↔ io < e.target))) := by
  refine ⟨rfl, rfl, rfl, fun hpos => ⟨?_, ?_, ?_⟩⟩ <;>
    simp only [ExceptionTableEntry.adjust] <;> split <;>
    constructor <;> intro h <;> omega

/-- Witness for C1 at the spec's scenario: the protected region `[4,20)`
with handler at `20`: inserting at offset `4` shifts `start` (to `6` for an
insertion of length `2`), while inserting at offset `20` leaves `end` and
`target` unchanged. -/
theorem exceptionTable_adjust_boundary_witness :
    (0 : Int) ≤ 2
    ∧ ((⟨4, 20, 20, 0⟩ : ExceptionTableEntry).adjust 4 2).start = 6
    ∧ ((⟨4, 20, 20, 0⟩ : ExceptionTableEntry).adjust 20 2).endOff = 20
    ∧ ((⟨4, 20, 20, 0⟩ : ExceptionTableEntry).adjust 20 2).target = 20 := by
  have h1 := exceptionTable_adjust_boundary ⟨4, 20, 20, 0⟩ 4 2 (by decide)
  have h2 := exceptionTable_adjust_boundary ⟨4, 20, 20, 0⟩ 20 2 (by decide)
  refine ⟨by decide, ?_, ?_, ?_⟩
  · rw [h1.1]; norm_num
  · rw [h2.2.1]; norm_num
  · rw [h2.2.2.1]; norm_num

/-- C2: after `Branch.adjust(insert_offset, insert_length)` with
`insert_length ≥ 0`, the branch's own `offset` is shifted exactly when
`offset ≥ insert_offset` (an instruction at the insertion point counts as
after it) and its `target` is shifted exactly when `target > insert_offset`
(a target at the insertion point counts as before it); `length` and
`opcode` are untouched, and consequently an insertion at offset `0` shifts
any forward target (`target > 0`) by exactly the inserted length. -/
theorem branch_adjust_boundary (b : Branch) (io il : Int) (hil : 0 ≤ il) :
    ((b.adjust io il).offset = if b.offset ≥ io then b.offset + il else b.offset)
    ∧ ((b.adjust io il).target = if b.target > io then b.target + il else b.target)
    ∧ (b.adjust io il).length = b.length
    ∧ (b.adjust io il).opcode = b.opcode
    ∧ (0 < il →
        (((b.adjust io il).offset = b.offset + il ↔ io ≤ b.offset)
         ∧ ((b.adjust io il).target = b.target + il ↔ io < b.target)))
    ∧ (0 < b.target → (b.adjust 0 il).target = b.target + il)
    ∧ (∀ (cacheOf : Nat → Nat) (stackEffect : Nat → Option Int → Int) (ed : Editor)
        (f : Int) (args : List Int) (len2 : Int) (ed2 : Editor),
        Editor.insert_function_call cacheOf stackEffect ed 0 f args = some (len2, ed2) →
        0 ≤ len2
        ∧ ed2.branches = ed.branches.map (fun c => c.adjust 0 len2)
        ∧ ∀ c ∈ ed.branches, 0 < c.target →
            ∃ c2 ∈ ed2.branches, c2.target = c.target + len2 ∧ c2.opcode = c.opcode) := by
  refine ⟨rfl, rfl, rfl, rfl, fun hpos => ⟨?_, ?_⟩, fun hfwd => ?_, ?_⟩
  · simp only [Branch.adjust]
    split <;> constructor <;> intro h <;> omega
  · simp only [Branch.adjust]
    split <;> constructor <;> intro h <;> omega
  · simp only [Branch.adjust]
    split <;> omega
  · intro cacheOf stackEffect ed f args len2 ed2 h
    rw [Editor.insert_function_call] at h
    cases h1 : opcode_arg op_LOAD_CONST f 0 (cacheOf op_LOAD_CONST) with
    | none => rw [h1] at h; exact absurd h (by simp)
    | some loadf =>
      rw [h1] at h
      cases h2 : loadConstArgs cacheOf args with
      | none => simp [h2] at h
      | some loadargs =>
        cases h3 : opcode_arg op_PRECALL (args.length : Int) 0 (cacheOf op_PRECALL) with
        | none => simp [h2, h3] at h
        | some precall =>
          cases h4 : opcode_arg op_CALL (args.length : Int) 0 (cacheOf op_CALL) with
          | none => simp [h2, h3, h4] at h
          | some call =>
            simp only [h2, h3, h4, Option.bind_eq_bind, Option.some_bind] at h
            cases h5 : offset2branch
                ((([op_NOP, 0, op_PUSH_NULL, 0] ++ loadf ++ loadargs
                  ++ precall ++ call ++ [op_POP_TOP, 0]).length : Int) - 2) with
            | none => rw [h5] at h; exact absurd h (by simp)
            | some jump =>
              rw [h5] at h
              simp only [Option.some_bind] at h
              split at h
              · split at h
                · exact absurd h (by simp)
                · next addtl heq =>
                  simp only [Option.some.injEq, Prod.mk.injEq] at h
                  obtain ⟨hlen, hed2⟩ := h
                  refine ⟨by omega, ?_, ?_⟩
                  · rw [← hed2, ← hlen]
                  · intro c hc hct
                    refine ⟨c.adjust 0 len2, ?_, ?_, rfl⟩
                    · rw [← hed2, ← hlen]
                      exact List.mem_map_of_mem _ hc
                    · simp only [Branch.adjust]
                      rw [if_pos hct]
              · exact absurd h (by simp)

/-- Witness for C2 at the spec's scenario: a forward branch (offset `4`,
target `16`) with an instrumentation sequence of length `6` inserted at
offset `0`: its target moves to `22`, its opcode stays `JUMP_FORWARD`. -/
theorem branch_adjust_boundary_witness :
    (0 : Int) ≤ 6
    ∧ 0 < (Branch.init 4 2 op_JUMP_FORWARD true false 5).target
    ∧ ((Branch.init 4 2 op_JUMP_FORWARD true false 5).adjust 0 6).target = 22
    ∧ ((Branch.init 4 2 op_JUMP_FORWARD true false 5).adjust 0 6).offset = 10
    ∧ ((Branch.init 4 2 op_JUMP_FORWARD true false 5).adjust 0 6).opcode = op_JUMP_FORWARD := by
  have h := branch_adjust_boundary (Branch.init 4 2 op_JUMP_FORWARD true false 5) 0 6
    (by decide)
  refine ⟨by decide, by decide, ?_, ?_, h.2.2.2.1⟩
  · rw [h.2.1]; decide
  · rw [h.1]; decide

/-- C3: after `LineEntry.adjust(insert_offset, insert_length)` with
`insert_length ≥ 0`, both `start` and `end` are shifted exactly when
strictly greater than `insert_offset`; in particular a line entry whose
`start` equals the insertion offset does not shift, unlike an
exception-table entry in the same situation (whose non-strict comparison
does shift its `start`). -/
theorem lineEntry_adjust_boundary (l : LineEntry) (e : ExceptionTableEntry) (io il : Int)
    (hil : 0 ≤ il) :
    ((l.adjust io il).start = if l.start > io then l.start + il else l.start)
    ∧ ((l.adjust io il).endOff = if l.endOff > io then l.endOff + il else l.endOff)
    ∧ (l.adjust io il).number = l.number
    ∧ (0 < il →
        (((l.adjust io il).start = l.start + il ↔ io < l.start)
         ∧ ((l.adjust io il).endOff = l.endOff + il ↔ io < l.endOff)))
    ∧ (l.start = io → (l.adjust io il).start = l.start)
    ∧ (e.start = io → (e.adjust io il).start = io + il) := by
  refine ⟨rfl, rfl, rfl, fun hpos => ⟨?_, ?_⟩, fun hb => ?_, fun hb => ?_⟩ <;>
    simp only [LineEntry.adjust, ExceptionTableEntry.adjust]
  · split <;> constructor <;> intro h <;> omega
  · split <;> constructor <;> intro h <;> omega
  · split <;> omega
  · split <;> omega

/-- Witness for C3: a line span starting at the insertion offset `4` keeps
its `start`, while an exception-table entry starting there is shifted. -/
theorem lineEntry_adjust_boundary_witness :
    (0 : Int) ≤ 2
    ∧ ((⟨4, 10, some 7⟩ : LineEntry).adjust 4 2).start = 4
    ∧ ((⟨4, 20, 20, 0⟩ : ExceptionTableEntry).adjust 4 2).start = 6 := by
  have h := lineEntry_adjust_boundary ⟨4, 10, some 7⟩ ⟨4, 20, 20, 0⟩ 4 2 (by decide)
  exact ⟨by decide, h.2.2.2.2.1 rfl, by rw [h.2.2.2.2.2 rfl]; norm_num⟩

/-- C6: `Branch.adjust_length()` returns
`max 0 ((2 + 2 * arg_ext_needed (arg)) - length)`; when that is positive the
new length is exactly the minimum sufficient `2 + 2 * arg_ext_needed (arg)`
and the target additionally moves by the growth exactly when strictly after
the branch's own offset; when it is zero nothing changes; and the length
never decreases. -/
theorem branch_adjust_length_spec (b : Branch) (a : Int) (ha : b.arg = some a) :
    ∃ change b2, b.adjust_length = some (change, b2)
      ∧ change = max 0 (2 + 2 * arg_ext_needed a - b.length)
      ∧ (0 < change →
          b2.length = 2 + 2 * arg_ext_needed a
          ∧ b2.offset = b.offset
          ∧ b2.opcode = b.opcode
          ∧ b2.target = (if b.target > b.offset then b.target + change else b.target))
      ∧ (change = 0 → b2 = b)
      ∧ b.length ≤ b2.length := by
  unfold Branch.adjust_length
  rw [ha]
  simp only
  split
  · next hc =>
    refine ⟨_, _, rfl, rfl, fun _ => ⟨rfl, rfl, rfl, rfl⟩, fun h0 => absurd h0 hc, ?_⟩
    simp only []
    omega
  · next hc =>
    simp only [ne_eq, not_not] at hc
    exact ⟨0, b, rfl, hc.symm, fun h0 => absurd h0 (by omega), fun _ => rfl, le_refl _⟩

/-- Witness for C6: a relative forward branch of length `2` whose argument
`300` needs one `EXTENDED_ARG`: `adjust_length` reports a growth of `2`. -/
theorem branch_adjust_length_spec_witness :
    (Branch.init 0 2 110 true false 300).arg = some 300
    ∧ ∃ change b2,
        (Branch.init 0 2 110 true false 300).adjust_length = some (change, b2)
        ∧ change = max 0 (2 + 2 * arg_ext_needed 300
            - (Branch.init 0 2 110 true false 300).length)
        ∧ change = 2 := by
  have ha : (Branch.init 0 2 110 true false 300).arg = some 300 := by decide
  obtain ⟨c, b2, h1, h2, -⟩ := branch_adjust_length_spec (Branch.init 0 2 110 true false 300)
    300 ha
  refine ⟨ha, c, b2, h1, by simpa [Branch.init] using h2, ?_⟩
  rw [h2]
  norm_num [arg_ext_needed, bit_length, Nat.log2, Branch.init]

/-- C10: `Editor.replace_global_with_const(name, const_index)` is a complete
no-op — the whole editor state is returned unchanged — whenever `name` does
not occur in the original code object's `co_names`. -/
theorem replace_global_absent_noop (cacheOf : Nat → Nat) (ed : Editor)
    (global_name : String) (const_index : Int)
    (h : global_name ∉ ed.orig_code.co_names) :
    ed.replace_global_with_const cacheOf global_name const_index = some ed := by
  unfold Editor.replace_global_with_const
  rw [if_neg h]

/-- Witness for C10: a name absent from `co_names` leaves a concrete editor
untouched. -/
theorem replace_global_absent_noop_witness :
    "y" ∉ (CodeObj.mk [] ["x"] [] 1 0 [] []).co_names
    ∧ Editor.replace_global_with_const (fun _ => 0)
        (Editor.mk (CodeObj.mk [] ["x"] [] 1 0 [] []) [] [] [] [] [] 0 false) "y" 5
      = some (Editor.mk (CodeObj.mk [] ["x"] [] 1 0 [] []) [] [] [] [] [] 0 false) := by
  have h : "y" ∉ (CodeObj.mk [] ["x"] [] 1 0 [] []).co_names := by simp
  exact ⟨h, replace_global_absent_noop (fun _ => 0)
    (Editor.mk (CodeObj.mk [] ["x"] [] 1 0 [] []) [] [] [] [] [] 0 false) "y" 5 h⟩

/-- C8: `Editor.finish` refuses (assertion failure, modelled `.err`) on an
editor whose `finished` flag is already set — so it never returns normally
on such an editor — and whenever it does return normally the resulting
editor has `finished = true`, so a second `finish` on it fails the leading
assertion. -/
theorem finish_terminal (cacheOf : Nat → Nat) (fuel : Nat) (ed : Editor) :
    (ed.finished = true → ed.finish cacheOf fuel = .err)
    ∧ (∀ code ed2, ed.finish cacheOf fuel = .ok code ed2 →
        ed2.finished = true
        ∧ ∀ (cacheOf2 : Nat → Nat) (fuel2 : Nat), ed2.finish cacheOf2 fuel2 = .err) := by
  constructor
  · intro h
    unfold Editor.finish
    rw [if_pos h]
  · intro code ed2 h
    by_cases hf : ed.finished
    · rw [Editor.finish, if_pos hf] at h
      exact absurd h (by simp)
    · rw [Editor.finish, if_neg hf] at h
      have h2 : ed2.finished = true := by
        split at h
        · exact absurd h (by simp)
        · exact absurd h (by simp)
        · split at h
          · exact absurd h (by simp)
          · split at h
            · exact absurd h (by simp)
            · simp only [FinishResult.ok.injEq] at h
              rw [← h.2]
      refine ⟨h2, fun cacheOf2 fuel2 => ?_⟩
      unfold Editor.finish
      rw [if_pos h2]

/-- Packing lemma: OR-ing a value shifted past `k` bits with a `k`-bit value
is addition. -/
theorem shiftLeft_lor_eq_add {k x d : Nat} (h : d < 2 ^ k) :
    x <<< k ||| d = 2 ^ k * x + d := by
  apply Nat.eq_of_testBit_eq
  intro i
  rw [Nat.testBit_lor, Nat.testBit_shiftLeft]
  rcases Nat.lt_or_ge i k with hik | hik
  · have h1 : decide (i ≥ k) = false := by simp; omega
    rw [h1]
    simp only [Bool.false_and, Bool.false_or]
    rw [Nat.testBit_to_div_mod, Nat.testBit_to_div_mod]
    have e0 : (2 : Nat) ^ k = 2 ^ i * 2 ^ (k - i) := by
      rw [← pow_add]
      congr 1
      omega
    have e1 : (2 ^ k * x + d) / 2 ^ i = d / 2 ^ i + 2 ^ (k - i) * x := by
      rw [e0, show 2 ^ i * 2 ^ (k - i) * x + d = d + 2 ^ i * (2 ^ (k - i) * x) by ring]
      exact Nat.add_mul_div_left _ _ (Nat.pos_pow_of_pos i (by norm_num))
    rw [e1]
    have e2 : (d / 2 ^ i + 2 ^ (k - i) * x) % 2 = d / 2 ^ i % 2 := by
      have : (2 : Nat) ^ (k - i) * x = 2 * (2 ^ (k - i - 1) * x) := by
        rw [← mul_assoc, ← pow_succ']
        congr 2
        omega
      rw [this, Nat.add_mul_mod_self_left]
    rw [e2]
  · have h1 : decide (i ≥ k) = true := by simp [hik]
    rw [h1]
    simp only [Bool.true_and]
    have hd : d.testBit i = false :=
      Nat.testBit_lt_two_pow (lt_of_lt_of_le h (Nat.pow_le_pow_right (by norm_num) hik))
    rw [hd]
    simp only [Bool.or_false]
    rw [Nat.testBit_to_div_mod, Nat.testBit_to_div_mod]
    have e1 : (2 ^ k * x + d) / 2 ^ i = x / 2 ^ (i - k) := by
      have e0 : (2 : Nat) ^ i = 2 ^ k * 2 ^ (i - k) := by
        rw [← pow_add]
        congr 1
        omega
      rw [e0, ← Nat.div_div_eq_div_mul]
      congr 1
      rw [show 2 ^ k * x + d = d + 2 ^ k * x by ring,
        Nat.add_mul_div_left _ _ (Nat.pos_pow_of_pos k (by norm_num)),
        Nat.div_eq_of_lt h, Nat.zero_add]
    rw [e1]

/-- Masking with `2^k - 1` is reduction mod `2^k`. -/
theorem and_two_pow_sub_one (x k : Nat) : x &&& (2 ^ k - 1) = x % 2 ^ k := by
  apply Nat.eq_of_testBit_eq
  intro i
  rw [Nat.testBit_and, Nat.testBit_two_pow_sub_one, Nat.testBit_mod_two_pow]
  exact Bool.and_comm _ _

/-- `x & 0x3f` is `x % 64`. -/
theorem and_63 (x : Nat) : x &&& 63 = x % 64 := by
  have h := and_two_pow_sub_one x 6
  norm_num at h
  exact h

/-- `x & 0xff` is `x % 256`. -/
theorem and_255 (x : Nat) : x &&& 255 = x % 256 := by
  have h := and_two_pow_sub_one x 8
  norm_num at h
  exact h

/-- A plain 6-bit payload has no continuation bit. -/
theorem and_64_eq_zero : ∀ x, x < 64 → x &&& 64 = 0 := by decide

/-- A continuation chunk keeps its continuation bit. -/
theorem chunk_and_64 : ∀ x, x < 64 → (64 ||| x) &&& 64 = 64 := by decide

/-- A continuation chunk's payload. -/
theorem chunk_and_63 : ∀ x, x < 64 → (64 ||| x) &&& 63 = x := by decide

/-- A continuation chunk is below the record-marker bit. -/
theorem chunk_lt_128 : ∀ x, x < 64 → 64 ||| x < 128 := by decide

/-- The record-marker bit `0x80` changes neither the continuation test nor
the payload of a byte below `128`. -/
theorem mark_preserves : ∀ h, h < 128 → (h ||| 128) &&& 64 = h &&& 64
    ∧ (h ||| 128) &&& 63 = h &&& 63 := by decide

/-- `readVarintGo` treats a `0x80`-marked first byte exactly like the
unmarked byte. -/
theorem readVarintGo_mark (h : Nat) (hh : h < 128) (v : Nat) (t : List Nat) :
    readVarintGo v ((h ||| 128) :: t) = readVarintGo v (h :: t) := by
  rw [readVarintGo, readVarintGo, (mark_preserves h hh).1, (mark_preserves h hh).2]

/-- The digits `writeChunksBE` draws from a natural number. -/
theorem intDigit_eq (n : Nat) (s : Nat) : ((n : Int) / 2 ^ s % 64).toNat = n / 2 ^ s % 64 := by
  rw [show ((2 : Int) ^ s) = ((2 ^ s : Nat) : Int) by push_cast; ring,
    show ((64 : Int)) = ((64 : Nat) : Int) by norm_num,
    ← Int.ofNat_ediv, ← Int.ofNat_emod, Int.toNat_ofNat]

/-- OR-ing a 6-bit value into a multiple of 64 is addition. -/
theorem lor_mul64_add (x d : Nat) (h : d < 64) : 64 * x ||| d = 64 * x + d := by
  rw [show 64 * x = x <<< 6 by rw [Nat.shiftLeft_eq]; ring,
    shiftLeft_lor_eq_add (h.trans_le (by norm_num))]
  rw [Nat.shiftLeft_eq]
  ring

/-- Reading the big-endian chunks of `n` below shift `6*m`, and then its
final 6-bit byte, appends `n`'s low `6*(m+1)` bits to an accumulator that is
a multiple of 64. -/
theorem readVarintGo_writeChunks (n : Nat) :
    ∀ (m w : Nat) (rest : List Nat),
    readVarintGo (64 * w) (writeChunksBE (n : Int) (6 * m) ++ (n % 64) :: rest)
      = some (64 * w * 64 ^ m + n % 64 ^ (m + 1), rest) := by
  intro m
  induction m with
  | zero =>
    intro w rest
    rw [show 6 * 0 = 0 by norm_num, writeChunksBE]
    rw [dif_pos rfl, List.nil_append, readVarintGo]
    rw [if_neg (by rw [and_64_eq_zero _ (Nat.mod_lt _ (by norm_num))]; simp)]
    rw [and_63, Nat.mod_mod_of_dvd _ (dvd_refl 64)]
    rw [lor_mul64_add w _ (Nat.mod_lt _ (by norm_num))]
    norm_num
  | succ m ih =>
    intro w rest
    rw [show 6 * (m + 1) = 6 * m + 6 by ring, writeChunksBE]
    rw [dif_neg (by omega), intDigit_eq]
    rw [show 6 * m + 6 - 6 = 6 * m by omega]
    rw [List.cons_append, readVarintGo]
    have hdlt : n / 2 ^ (6 * m + 6) % 64 < 64 := Nat.mod_lt _ (by norm_num)
    rw [if_pos (by rw [chunk_and_64 _ hdlt]; simp)]
    rw [chunk_and_63 _ hdlt]
    rw [lor_mul64_add w _ hdlt]
    rw [show ((64 * w + n / 2 ^ (6 * m + 6) % 64) <<< 6)
        = 64 * (64 * (64 * w + n / 2 ^ (6 * m + 6) % 64) / 64) by
      rw [Nat.shiftLeft_eq]; omega]
    rw [show (64 * (64 * w + n / 2 ^ (6 * m + 6) % 64) / 64)
        = 64 * w + n / 2 ^ (6 * m + 6) % 64 by omega]
    rw [ih (64 * w + n / 2 ^ (6 * m + 6) % 64) rest]
    simp only [Option.some.injEq, Prod.mk.injEq, and_true]
    have hdig : n / 2 ^ (6 * m + 6) % 64 = n / 64 ^ (m + 1) % 64 := by
      rw [show (64 : Nat) ^ (m + 1) = 2 ^ (6 * m + 6) by
        rw [show (64 : Nat) = 2 ^ 6 by norm_num, ← pow_mul]; ring_nf]
    rw [hdig, Nat.mod_pow_succ (b := 64) (k := m + 1)]
    ring

/-- The byte list emitted by `write_varint_be` before marking is nonempty
and its head is below `128`. -/
theorem writeChunks_head (n : Nat) (s : Nat) :
    ∃ d t, writeChunksBE (n : Int) s ++ [((n : Int) % 64).toNat] = d :: t ∧ d < 128 := by
  rw [writeChunksBE]
  split
  · refine ⟨((n : Int) % 64).toNat, [], rfl, ?_⟩
    have h1 : ((n : Int) % 64).toNat = n % 64 := by
      rw [show ((64 : Int)) = ((64 : Nat) : Int) by norm_num, ← Int.ofNat_emod,
        Int.toNat_ofNat]
    rw [h1]
    have := Nat.mod_lt n (show 0 < 64 by norm_num)
    omega
  · refine ⟨_, _, rfl, ?_⟩
    exact chunk_lt_128 _ (by rw [intDigit_eq]; exact Nat.mod_lt _ (by norm_num))

/-- Big-endian varint round trip: reading back what `write_varint_be`
emitted (marked or not) recovers the value and consumes exactly its bytes. -/
theorem read_write_varint_be (n : Nat) (mark : Nat) (hm : mark = 0 ∨ mark = 0x80)
    (rest : List Nat) :
    read_varint_be (write_varint_be (n : Int) mark ++ rest) = some (n, rest) := by
  have hcast : ((n : Int) % 64).toNat = n % 64 := by
    rw [show ((64 : Int)) = ((64 : Nat) : Int) by norm_num, ← Int.ofNat_emod,
      Int.toNat_ofNat]
  have habs : ((n : Int)).natAbs = n := Int.natAbs_ofNat n
  -- the start shift is 6 * (the chunk count) and `n` fits below it
  obtain ⟨m, hstart, hfit⟩ :
      ∃ m, (((bit_length (n : Int).natAbs : Int) - 1)
              - ((bit_length (n : Int).natAbs : Int) - 1) % 6).toNat = 6 * m
        ∧ n % 64 ^ (m + 1) = n := by
    rcases Nat.eq_zero_or_pos n with h0 | hpos
    · subst h0
      exact ⟨0, by norm_num [bit_length], by norm_num⟩
    · refine ⟨Nat.log2 n / 6, ?_, ?_⟩
      · rw [habs]
        rw [show bit_length n = Nat.log2 n + 1 by rw [bit_length, if_neg (by omega)]]
        have h6 : ((Nat.log2 n : Int) + 1 - 1) % 6 = ((Nat.log2 n % 6 : Nat) : Int) := by
          push_cast
          simp [Int.emod_emod_of_dvd]
        omega
      · have hlt : n < 64 ^ (Nat.log2 n / 6 + 1) := by
          have h1 : n < 2 ^ (Nat.log2 n + 1) := Nat.lt_log2_self
          have h2 : (64 : Nat) ^ (Nat.log2 n / 6 + 1) = 2 ^ (6 * (Nat.log2 n / 6 + 1)) := by
            rw [show (64 : Nat) = 2 ^ 6 by norm_num, ← pow_mul]
          rw [h2]
          exact lt_of_lt_of_le h1 (Nat.pow_le_pow_right (by norm_num) (by omega))
        exact Nat.mod_eq_of_lt hlt
  simp only [write_varint_be, read_varint_be]
  rw [hstart, hcast]
  rcases hm with hm | hm
  · subst hm
    rw [if_neg (by norm_num), List.append_assoc, List.singleton_append]
    have h := readVarintGo_writeChunks n m 0 rest
    rw [Nat.mul_zero, Nat.zero_mul, Nat.zero_add, hfit] at h
    exact h
  · subst hm
    obtain ⟨d, t, hdt, hd⟩ := writeChunks_head n (6 * m)
    rw [hcast] at hdt
    rw [hdt]
    rw [if_pos (by norm_num)]
    simp only [List.cons_append]
    rw [readVarintGo_mark d hd]
    have h := readVarintGo_writeChunks n m 0 rest
    rw [Nat.mul_zero, Nat.zero_mul, Nat.zero_add, hfit] at h
    rw [List.append_cons, hdt, List.cons_append] at h
    exact h

/-- `append_varint` only ever appends: its output is the input followed by
the encoding of `n` alone. -/
theorem append_varint_append (n : Nat) : ∀ data : List Nat,
    append_varint data n = data ++ append_varint [] n := by
  induction n using Nat.strong_induction_on with
  | _ n ih =>
    intro data
    rw [append_varint]
    conv_rhs => rw [append_varint]
    by_cases h : n > 0x3f
    · rw [dif_pos h, dif_pos h]
      have hlt : n >>> 6 < n := by simp only [Nat.shiftRight_eq_div_pow]; omega
      rw [ih _ hlt, ih _ hlt ([] ++ [0x40 ||| (n &&& 0x3f)])]
      simp
    · rw [dif_neg h, dif_neg h]
      simp

/-- Little-endian varint round trip: decoding the bytes `append_varint`
produced recovers the value and consumes exactly its bytes. -/
theorem read_append_varint (n : Nat) : ∀ rest : List Nat,
    read_varint_le (append_varint [] n ++ rest) = some (n, rest) := by
  induction n using Nat.strong_induction_on with
  | _ n ih =>
    intro rest
    rw [append_varint]
    by_cases h : n > 0x3f
    · rw [dif_pos h, append_varint_append]
      have hp : n &&& 0x3f < 64 := by rw [and_63]; exact Nat.mod_lt _ (by norm_num)
      simp only [List.nil_append, List.cons_append, List.append_assoc]
      rw [read_varint_le]
      rw [if_pos (by rw [chunk_and_64 _ hp]; simp)]
      have hlt : n >>> 6 < n := by simp only [Nat.shiftRight_eq_div_pow]; omega
      rw [ih _ hlt rest]
      simp only [Option.map_some']
      rw [chunk_and_63 _ hp, and_63]
      rw [Nat.lor_comm, shiftLeft_lor_eq_add (by norm_num [Nat.mod_lt] : n % 64 < 2 ^ 6)]
      simp only [Nat.shiftRight_eq_div_pow, Option.some.injEq, Prod.mk.injEq, and_true]
      omega
    · rw [dif_neg h]
      simp only [List.nil_append, List.cons_append]
      rw [read_varint_le]
      rw [if_neg (by rw [and_64_eq_zero _ (by omega)]; simp)]
      rw [and_63, Nat.mod_eq_of_lt (by omega)]

/-- C9 counterexample: the value 1,000,000 does not require three 6-bit
chunks — both encoders emit four chunks for it (its bit length is 20). -/
theorem varint_1000000_needs_four_chunks :
    (append_varint [] 1000000).length = 4
    ∧ (write_varint_be (1000000 : Int) 0).length = 4
    ∧ ¬((append_varint [] 1000000).length = 3) := by
  have hle : ∃ a b c d, append_varint [] 1000000 = [a, b, c, d] := by
    rw [append_varint, dif_pos (by norm_num), append_varint_append,
      show (1000000 : Nat) >>> 6 = 15625 by norm_num [Nat.shiftRight_eq_div_pow]]
    rw [append_varint, dif_pos (by norm_num), append_varint_append,
      show (15625 : Nat) >>> 6 = 244 by norm_num [Nat.shiftRight_eq_div_pow]]
    rw [append_varint, dif_pos (by norm_num), append_varint_append,
      show (244 : Nat) >>> 6 = 3 by norm_num [Nat.shiftRight_eq_div_pow]]
    rw [append_varint, dif_neg (by norm_num)]
    simp only [List.nil_append, List.cons_append, List.singleton_append, List.append_assoc]
    exact ⟨_, _, _, _, rfl⟩
  have hbe : ∃ a b c d, write_varint_be (1000000 : Int) 0 = [a, b, c, d] := by
    have hb : bit_length (Int.natAbs (1000000 : Int)) = 20 := by
      norm_num [bit_length, Nat.log2]
    simp only [write_varint_be, hb]
    rw [show ((((20 : Nat) : Int) - 1 - ((20 : Nat) - 1 : Int) % 6).toNat) = 18 by decide]
    rw [writeChunksBE, dif_neg (by norm_num), show (18 : Nat) - 6 = 12 by norm_num]
    rw [writeChunksBE, dif_neg (by norm_num), show (12 : Nat) - 6 = 6 by norm_num]
    rw [writeChunksBE, dif_neg (by norm_num), show (6 : Nat) - 6 = 0 by norm_num]
    rw [writeChunksBE, dif_pos rfl]
    rw [if_neg (by norm_num)]
    simp only [List.nil_append, List.cons_append, List.singleton_append, List.append_assoc]
    exact ⟨_, _, _, _, rfl⟩
  obtain ⟨a1, b1, c1, d1, h1⟩ := hle
  obtain ⟨a2, b2, c2, d2, h2⟩ := hbe
  rw [h1, h2]
  norm_num

/-- C9 (amended): every value in the three-chunk range
`4096 ≤ n < 262144` round-trips through both the little-endian pair
(`append_varint` / the spec-modelled little-endian decoder) and the
big-endian pair (`write_varint_be` / `read_varint_be`), and its
little-endian encoding indeed has three chunks; the spec's example value
1,000,000 (which needs four chunks, not three) also round-trips through
both pairs. -/
theorem varint_roundtrip_three_chunks (n : Nat) (h1 : 4096 ≤ n) (h2 : n < 262144) :
    read_varint_be (write_varint_be (n : Int) 0) = some (n, [])
    ∧ read_varint_le (append_varint [] n) = some (n, [])
    ∧ (append_varint [] n).length = 3
    ∧ read_varint_be (write_varint_be ((1000000 : Nat) : Int) 0) = some (1000000, [])
    ∧ read_varint_le (append_varint [] 1000000) = some (1000000, []) := by
  refine ⟨?_, ?_, ?_, ?_, ?_⟩
  · rw [← List.append_nil (write_varint_be (n : Int) 0)]
    exact read_write_varint_be n 0 (Or.inl rfl) []
  · rw [← List.append_nil (append_varint [] n)]
    exact read_append_varint n []
  · rw [append_varint, dif_pos (by omega)]
    rw [append_varint_append, append_varint, dif_pos (by simp [Nat.shiftRight_eq_div_pow]; omega)]
    rw [append_varint_append, append_varint,
      dif_neg (by simp [Nat.shiftRight_eq_div_pow, Nat.div_div_eq_div_mul]; omega)]
    simp
  · rw [← List.append_nil (write_varint_be ((1000000 : Nat) : Int) 0)]
    exact read_write_varint_be 1000000 0 (Or.inl rfl) []
  · rw [← List.append_nil (append_varint [] 1000000)]
    exact read_append_varint 1000000 []

/-- Witness for the amended C9 at `n = 10000` (a three-chunk value). -/
theorem varint_roundtrip_three_chunks_witness :
    4096 ≤ 10000 ∧ 10000 < 262144
    ∧ read_varint_be (write_varint_be ((10000 : Nat) : Int) 0) = some (10000, [])
    ∧ read_varint_le (append_varint [] 10000) = some (10000, [])
    ∧ (append_varint [] 10000).length = 3 := by
  have h := varint_roundtrip_three_chunks 10000 (by norm_num) (by norm_num)
  exact ⟨by norm_num, by norm_num, h.1, h.2.1, h.2.2.1⟩

/-- `offset2branch` on an even offset divides it by two. -/
theorem offset2branch_even {a : Int} (h2 : 2 ∣ a) : offset2branch a = some (a / 2) := by
  rw [offset2branch, if_pos (Int.emod_eq_zero_of_dvd h2)]

/-- Decoding the record `make_exceptiontable` emits for one valid entry
consumes exactly its bytes and reproduces the entry's four fields. -/
theorem et_record_decode (e : ExceptionTableEntry)
    (h0 : 0 ≤ e.start) (h1 : e.start ≤ e.endOff) (h2 : 0 ≤ e.target) (h3 : 0 ≤ e.other)
    (d1 : 2 ∣ e.start) (d2 : 2 ∣ e.endOff) (d3 : 2 ∣ e.target) (t' : List Nat) :
    (read_varint_be (write_varint_be (e.start / 2) 0x80 ++ (write_varint_be ((e.endOff - e.start) / 2) 0
        ++ (write_varint_be (e.target / 2) 0 ++ (write_varint_be e.other 0 ++ t'))))
      = some ((e.start / 2).toNat,
          write_varint_be ((e.endOff - e.start) / 2) 0 ++ (write_varint_be (e.target / 2) 0
            ++ (write_varint_be e.other 0 ++ t'))))
    ∧ branch2offset ((e.start / 2).toNat : Int) = e.start
    ∧ branch2offset (((e.endOff - e.start) / 2).toNat : Int) = e.endOff - e.start
    ∧ branch2offset ((e.target / 2).toNat : Int) = e.target
    ∧ ((e.other.toNat : Int)) = e.other := by
  have hs : 0 ≤ e.start / 2 := Int.ediv_nonneg h0 (by norm_num)
  have hl : 0 ≤ (e.endOff - e.start) / 2 := Int.ediv_nonneg (by omega) (by norm_num)
  have ht : 0 ≤ e.target / 2 := Int.ediv_nonneg h2 (by norm_num)
  refine ⟨?_, ?_, ?_, ?_, Int.toNat_of_nonneg h3⟩
  · rw [show write_varint_be (e.start / 2) 0x80
        = write_varint_be (((e.start / 2).toNat : Int)) 0x80 by rw [Int.toNat_of_nonneg hs]]
    exact read_write_varint_be _ 0x80 (Or.inr rfl) _
  · rw [branch2offset, Int.toNat_of_nonneg hs, Int.ediv_mul_cancel d1]
  · rw [branch2offset, Int.toNat_of_nonneg hl, Int.ediv_mul_cancel (by omega : (2 : Int) ∣ e.endOff - e.start)]
  · rw [branch2offset, Int.toNat_of_nonneg ht, Int.ediv_mul_cancel d3]

/-- Decoding what `make_exceptiontable` encodes reproduces the entry list,
for entries with even, non-negative `start`/`end`/`target`, `start ≤ end`,
and non-negative `other`. -/
theorem etFromBytes_make (es : List ExceptionTableEntry)
    (hv : ∀ e ∈ es, (0 ≤ e.start ∧ e.start ≤ e.endOff ∧ 0 ≤ e.target ∧ 0 ≤ e.other)
      ∧ (2 ∣ e.start ∧ 2 ∣ e.endOff ∧ 2 ∣ e.target)) :
    ∃ t, ExceptionTableEntry.make_exceptiontable es = some t ∧ etFromBytes t = es := by
  induction es with
  | nil =>
    refine ⟨[], rfl, ?_⟩
    rw [etFromBytes]
    simp [readETRecord, read_varint_be, readVarintGo]
  | cons e rest ih =>
    obtain ⟨⟨h0, h1, h2, h3⟩, d1, d2, d3⟩ := hv e (by simp)
    obtain ⟨t', ht', hdec⟩ := ih (fun x hx => hv x (by simp [hx]))
    obtain ⟨hread, hb1, hb2, hb3, hb4⟩ := et_record_decode e h0 h1 h2 h3 d1 d2 d3 t'
    refine ⟨write_varint_be (e.start / 2) 0x80 ++ (write_varint_be ((e.endOff - e.start) / 2) 0
        ++ (write_varint_be (e.target / 2) 0 ++ (write_varint_be e.other 0 ++ t'))), ?_, ?_⟩
    · rw [ExceptionTableEntry.make_exceptiontable]
      rw [offset2branch_even d1, offset2branch_even (by omega : (2:Int) ∣ e.endOff - e.start),
        offset2branch_even d3, ht']
      rfl
    · have hr2 : read_varint_be (write_varint_be ((e.endOff - e.start) / 2) 0
          ++ (write_varint_be (e.target / 2) 0 ++ (write_varint_be e.other 0 ++ t')))
          = some ((((e.endOff - e.start) / 2)).toNat,
              write_varint_be (e.target / 2) 0 ++ (write_varint_be e.other 0 ++ t')) := by
        rw [show write_varint_be ((e.endOff - e.start) / 2) 0
            = write_varint_be ((((e.endOff - e.start) / 2).toNat : Int)) 0 by
          rw [Int.toNat_of_nonneg (Int.ediv_nonneg (by omega) (by norm_num))]]
        exact read_write_varint_be _ 0 (Or.inl rfl) _
      have hr3 : read_varint_be (write_varint_be (e.target / 2) 0
          ++ (write_varint_be e.other 0 ++ t'))
          = some ((e.target / 2).toNat, write_varint_be e.other 0 ++ t') := by
        rw [show write_varint_be (e.target / 2) 0
            = write_varint_be (((e.target / 2).toNat : Int)) 0 by
          rw [Int.toNat_of_nonneg (Int.ediv_nonneg h2 (by norm_num))]]
        exact read_write_varint_be _ 0 (Or.inl rfl) _
      have hr4 : read_varint_be (write_varint_be e.other 0 ++ t')
          = some (e.other.toNat, t') := by
        rw [show write_varint_be e.other 0
            = write_varint_be ((e.other.toNat : Int)) 0 by
          rw [Int.toNat_of_nonneg h3]]
        exact read_write_varint_be _ 0 (Or.inl rfl) _
      have hrec : readETRecord (write_varint_be (e.start / 2) 0x80
          ++ (write_varint_be ((e.endOff - e.start) / 2) 0
            ++ (write_varint_be (e.target / 2) 0 ++ (write_varint_be e.other 0 ++ t'))))
          = some (e, t') := by
        rw [readETRecord]
        simp only [hread, hr2, hr3, hr4, Option.bind_eq_bind, Option.some_bind]
        simp only [Option.pure_def, Option.some.injEq, Prod.mk.injEq, and_true]
        rw [ExceptionTableEntry.mk.injEq]
        refine ⟨hb1, ?_, hb3, hb4⟩
        rw [hb1, hb2]
        omega
      rw [etFromBytes]
      split
      next heq =>
        rw [hrec] at heq
        exact absurd heq (by simp)
      next e2 r2 heq =>
        rw [hrec] at heq
        simp only [Option.some.injEq, Prod.mk.injEq] at heq
        rw [← heq.1, ← heq.2, hdec]

/-- C5: for every byte string that is `make_exceptiontable` of a valid entry
list (even, non-negative `start`/`end`/`target`, `start ≤ end`, non-negative
`other`), decoding it with the record loop of
`ExceptionTableEntry.from_code` and re-encoding the resulting entries
reproduces the bytes exactly. -/
theorem exceptiontable_roundtrip (es : List ExceptionTableEntry) (t : List Nat)
    (hv : ∀ e ∈ es, (0 ≤ e.start ∧ e.start ≤ e.endOff ∧ 0 ≤ e.target ∧ 0 ≤ e.other)
      ∧ (2 ∣ e.start ∧ 2 ∣ e.endOff ∧ 2 ∣ e.target))
    (ht : ExceptionTableEntry.make_exceptiontable es = some t) :
    ExceptionTableEntry.make_exceptiontable (etFromBytes t) = some t := by
  obtain ⟨t0, ht0, hdec⟩ := etFromBytes_make es hv
  rw [ht0] at ht
  injection ht with ht
  rw [← ht, hdec, ht0]

/-- Witness for C5: the single protected region `[4,8)` with handler at
`12` and flags `0` encodes to `[0x82, 2, 6, 0]` and survives the
decode/re-encode round trip. -/
theorem exceptiontable_roundtrip_witness :
    (∀ e ∈ [(⟨4, 8, 12, 0⟩ : ExceptionTableEntry)],
      (0 ≤ e.start ∧ e.start ≤ e.endOff ∧ 0 ≤ e.target ∧ 0 ≤ e.other)
      ∧ (2 ∣ e.start ∧ 2 ∣ e.endOff ∧ 2 ∣ e.target))
    ∧ ExceptionTableEntry.make_exceptiontable [⟨4, 8, 12, 0⟩] = some [130, 2, 6, 0]
    ∧ ExceptionTableEntry.make_exceptiontable (etFromBytes [130, 2, 6, 0])
        = some [130, 2, 6, 0] := by
  have hv : ∀ e ∈ [(⟨4, 8, 12, 0⟩ : ExceptionTableEntry)],
      (0 ≤ e.start ∧ e.start ≤ e.endOff ∧ 0 ≤ e.target ∧ 0 ≤ e.other)
      ∧ (2 ∣ e.start ∧ 2 ∣ e.endOff ∧ 2 ∣ e.target) := by decide
  have w1 : write_varint_be (2 : Int) 0x80 = [130] := by
    have hb : bit_length (Int.natAbs (2 : Int)) = 2 := by norm_num [bit_length, Nat.log2]
    simp only [write_varint_be, hb]
    rw [show ((((2 : Nat) : Int) - 1 - (((2 : Nat) : Int) - 1) % 6).toNat) = 0 by decide]
    rw [writeChunksBE, dif_pos rfl]
    decide
  have w2 : write_varint_be (2 : Int) 0 = [2] := by
    have hb : bit_length (Int.natAbs (2 : Int)) = 2 := by norm_num [bit_length, Nat.log2]
    simp only [write_varint_be, hb]
    rw [show ((((2 : Nat) : Int) - 1 - (((2 : Nat) : Int) - 1) % 6).toNat) = 0 by decide]
    rw [writeChunksBE, dif_pos rfl]
    decide
  have w3 : write_varint_be (6 : Int) 0 = [6] := by
    have hb : bit_length (Int.natAbs (6 : Int)) = 3 := by norm_num [bit_length, Nat.log2]
    simp only [write_varint_be, hb]
    rw [show ((((3 : Nat) : Int) - 1 - (((3 : Nat) : Int) - 1) % 6).toNat) = 0 by decide]
    rw [writeChunksBE, dif_pos rfl]
    decide
  have w4 : write_varint_be (0 : Int) 0 = [0] := by
    have hb : bit_length (Int.natAbs (0 : Int)) = 0 := by norm_num [bit_length]
    simp only [write_varint_be, hb]
    rw [show ((((0 : Nat) : Int) - 1 - (((0 : Nat) : Int) - 1) % 6).toNat) = 0 by decide]
    rw [writeChunksBE, dif_pos rfl]
    decide
  have o1 : offset2branch (4 : Int) = some 2 := by decide
  have o2 : offset2branch (8 - 4 : Int) = some 2 := by decide
  have o3 : offset2branch (12 : Int) = some 6 := by decide
  have hmk : ExceptionTableEntry.make_exceptiontable [⟨4, 8, 12, 0⟩]
      = some [130, 2, 6, 0] := by
    rw [ExceptionTableEntry.make_exceptiontable, ExceptionTableEntry.make_exceptiontable]
    simp only [o1, o2, o3, Option.bind_eq_bind, Option.some_bind, Option.pure_def, w1, w2, w3, w4]
    rfl
  exact ⟨hv, hmk, exceptiontable_roundtrip _ _ hv hmk⟩

/-- Every value is below two to its `bit_length`. -/
theorem lt_two_pow_bit_length (A : Nat) : A < 2 ^ bit_length A := by
  rw [bit_length]
  split
  · omega
  · exact Nat.lt_log2_self

/-- `arg_ext_needed` is at most `K` for values below `2 ^ (8K + 8)`. -/
theorem arg_ext_needed_le {A K : Nat} (hA : A < 2 ^ (8 * K + 8)) :
    arg_ext_needed (A : Int) ≤ (K : Int) := by
  rw [arg_ext_needed, Int.natAbs_ofNat]
  rcases Nat.eq_zero_or_pos A with h0 | hpos
  · subst h0
    norm_num [bit_length]
    omega
  · rw [bit_length, if_neg (by omega)]
    have hlog : Nat.log2 A < 8 * K + 8 := by
      by_contra hc
      push_neg at hc
      have h1 := Nat.log2_self_le (by omega : A ≠ 0)
      have h2 : (2 : Nat) ^ (8 * K + 8) ≤ 2 ^ Nat.log2 A :=
        Nat.pow_le_pow_right (by norm_num) hc
      omega
    push_cast
    omega

/-- Values whose `arg_ext_needed` is at most `K` are below `2 ^ (8K + 8)`. -/
theorem lt_of_arg_ext_needed_le {A K : Nat} (h : arg_ext_needed (A : Int) ≤ (K : Int)) :
    A < 2 ^ (8 * K + 8) := by
  rw [arg_ext_needed, Int.natAbs_ofNat] at h
  have hbl : bit_length A ≤ 8 * K + 8 := by omega
  calc A < 2 ^ bit_length A := lt_two_pow_bit_length A
    _ ≤ 2 ^ (8 * K + 8) := Nat.pow_le_pow_right (by norm_num) hbl

/-- The digits `opcode_arg` draws from a non-negative argument. -/
theorem intDigit256_eq (n : Nat) (s : Nat) :
    ((n : Int) / 2 ^ s % 256).toNat = n / 2 ^ s % 256 := by
  rw [show ((2 : Int) ^ s) = ((2 ^ s : Nat) : Int) by push_cast; ring,
    show ((256 : Int)) = ((256 : Nat) : Int) by norm_num,
    ← Int.ofNat_ediv, ← Int.ofNat_emod, Int.toNat_ofNat]

/-- Casting the final operand byte. -/
theorem intMod256_eq (n : Nat) : ((n : Int) % 256).toNat = n % 256 := by
  rw [show ((256 : Int)) = ((256 : Nat) : Int) by norm_num, ← Int.ofNat_emod,
    Int.toNat_ofNat]

/-- `opcode_arg` with `min_ext = K ≤ 3` forced and an argument that fits in
`K` extension prefixes emits exactly `2K + 2` bytes, and `unpack_opargs`
decodes them back to a single instruction with the original opcode and
argument. -/
theorem unpack_opcode_arg (opcode : Nat) (hop1 : opcode ∉ is_EXTENDED_ARG)
    (hop2 : opcode ≠ op_CACHE) (A K : Nat) (hK : K ≤ 3) (hA : A < 2 ^ (8 * K + 8)) :
    ∃ bs, opcode_arg opcode (A : Int) (K : Int) 0 = some bs
      ∧ bs.length = 2 * K + 2
      ∧ unpack_opargs bs = some [(0, 2 * K + 2, opcode, A)] := by
  have hAE := arg_ext_needed_le hA
  have hop1' : ¬(opcode = 144 ∨ opcode = 169) := by
    simpa [is_EXTENDED_ARG, op_EXTENDED_ARG, op_EXTENDED_ARG_QUICK] using hop1
  have hm : ∀ x : Nat, x % 256 < 2 ^ 8 := fun x => by norm_num [Nat.mod_lt]
  have hemit : opcode_arg opcode (A : Int) (K : Int) 0
      = some ((List.range K).flatMap (fun i => [op_EXTENDED_ARG, A / 2 ^ ((K - i) * 8) % 256])
          ++ [opcode, A % 256]) := by
    rw [opcode_arg]
    simp only [max_eq_right hAE]
    rw [if_pos (by omega : ((K : Nat) : Int) ≤ 3)]
    simp only [Int.toNat_ofNat, intDigit256_eq, intMod256_eq]
    simp
  interval_cases K
  · refine ⟨[opcode, A % 256], by simpa using hemit, by norm_num, ?_⟩
    simp [unpack_opargs, unpackFrom, skipCaches, hop1, hop2, is_EXTENDED_ARG,
      op_EXTENDED_ARG, op_EXTENDED_ARG_QUICK, op_CACHE, List.getD]
    rw [if_neg hop1']
    norm_num at hA ⊢
    omega
  · refine ⟨[op_EXTENDED_ARG, A / 2 ^ 8 % 256, opcode, A % 256],
      by simpa [List.flatMap, List.range_succ] using hemit, by norm_num, ?_⟩
    simp [unpack_opargs, unpackFrom, skipCaches, hop1, hop2, is_EXTENDED_ARG,
      op_EXTENDED_ARG, op_EXTENDED_ARG_QUICK, op_CACHE, List.getD]
    rw [if_neg hop1']
    rw [shiftLeft_lor_eq_add (hm _)]
    norm_num at hA ⊢
    omega
  · refine ⟨[op_EXTENDED_ARG, A / 2 ^ 16 % 256, op_EXTENDED_ARG, A / 2 ^ 8 % 256,
        opcode, A % 256],
      by simpa [List.flatMap, List.range_succ] using hemit, by norm_num, ?_⟩
    simp [unpack_opargs, unpackFrom, skipCaches, hop1, hop2, is_EXTENDED_ARG,
      op_EXTENDED_ARG, op_EXTENDED_ARG_QUICK, op_CACHE, List.getD]
    rw [if_neg hop1']
    rw [shiftLeft_lor_eq_add (hm _), shiftLeft_lor_eq_add (hm _)]
    norm_num at hA ⊢
    omega
  · refine ⟨[op_EXTENDED_ARG, A / 2 ^ 24 % 256, op_EXTENDED_ARG, A / 2 ^ 16 % 256,
        op_EXTENDED_ARG, A / 2 ^ 8 % 256, opcode, A % 256],
      by simpa [List.flatMap, List.range_succ] using hemit, by norm_num, ?_⟩
    simp [unpack_opargs, unpackFrom, skipCaches, hop1, hop2, is_EXTENDED_ARG,
      op_EXTENDED_ARG, op_EXTENDED_ARG_QUICK, op_CACHE, List.getD]
    rw [if_neg hop1']
    rw [shiftLeft_lor_eq_add (hm _), shiftLeft_lor_eq_add (hm _),
      shiftLeft_lor_eq_add (hm _)]
    norm_num at hA ⊢
    omega

/-- C4: a `Branch` in the state `adjust_length` establishes
(`length ≥ 2 + 2*arg_ext_needed(arg)`, an even instruction length between 2
and 8, a non-negative argument, and an opcode that is neither an extension
prefix nor `CACHE`) emits with `code()` a byte sequence of length exactly
`length`; decoding those bytes with `unpack_opargs` yields a single
instruction carrying the same opcode and the original argument, and
re-running `Branch.__init__` on `(offset, length, opcode, decoded arg)`
reproduces the branch's `target` — for relative-forward, relative-backward
and absolute branches alike (`arg()` inverts the target computation). -/
theorem branch_code_roundtrip (offset length : Int) (opcode : Nat) (isRel isBack : Bool)
    (a : Int) (ha : 0 ≤ a) (hev : 2 ∣ length) (hlen2 : 2 ≤ length)
    (hge : 2 + 2 * arg_ext_needed a ≤ length) (hle : length ≤ 8)
    (hop1 : opcode ∉ is_EXTENDED_ARG) (hop2 : opcode ≠ op_CACHE) :
    ∃ bs aDec,
      (Branch.init offset length opcode isRel isBack a).arg = some a
      ∧ (Branch.init offset length opcode isRel isBack a).code 0 = some bs
      ∧ (bs.length : Int) = length
      ∧ unpack_opargs bs = some [(0, bs.length, opcode, aDec)]
      ∧ (aDec : Int) = a
      ∧ (Branch.init offset length opcode isRel isBack (aDec : Int)).target
          = (Branch.init offset length opcode isRel isBack a).target := by
  obtain ⟨k, hk⟩ := hev
  have hk1 : 1 ≤ k := by omega
  have harg : (Branch.init offset length opcode isRel isBack a).arg = some a := by
    cases isRel <;> cases isBack <;>
      simp [Branch.arg, Branch.init, branch2offset, offset2branch] <;>
      rw [abs_of_nonneg (by omega : (0 : Int) ≤ a * 2),
        Int.mul_ediv_cancel a (by norm_num)]
  set A := a.toNat with hA_def
  have haA : (A : Int) = a := Int.toNat_of_nonneg ha
  set K := (k - 1).toNat with hK_def
  have hKk : (K : Int) = k - 1 := Int.toNat_of_nonneg (by omega)
  have hbound : A < 2 ^ (8 * K + 8) := by
    apply lt_of_arg_ext_needed_le
    rw [haA]
    omega
  obtain ⟨bs, hemit, hblen, hbdec⟩ := unpack_opcode_arg opcode hop1 hop2 A K
    (by omega) hbound
  refine ⟨bs, A, harg, ?_, ?_, ?_, haA, by rw [haA]⟩
  · rw [Branch.code]
    simp only [harg]
    rw [if_pos (by simpa [Branch.init] using hge)]
    rw [show (Branch.init offset length opcode isRel isBack a).length = length from rfl]
    rw [show (Branch.init offset length opcode isRel isBack a).opcode = opcode from rfl]
    rw [show (length - 2) / 2 = (K : Int) by rw [hKk, hk,
      show 2 * k - 2 = (k - 1) * 2 by ring, Int.mul_ediv_cancel _ (by norm_num)]]
    rw [← haA]
    exact hemit
  · rw [hblen]
    push_cast
    omega
  · rw [hbdec, hblen]

/-- Witness for C4: a relative forward `JUMP_FORWARD` at offset 4, length 4
(one extension prefix), argument 300. -/
theorem branch_code_roundtrip_witness :
    ((0 : Int) ≤ 300 ∧ (2 : Int) ∣ 4 ∧ (2 : Int) ≤ 4 ∧ 2 + 2 * arg_ext_needed 300 ≤ 4
      ∧ (4 : Int) ≤ 8 ∧ 110 ∉ is_EXTENDED_ARG ∧ 110 ≠ op_CACHE)
    ∧ ∃ bs aDec,
        (Branch.init 4 4 110 true false 300).arg = some 300
        ∧ (Branch.init 4 4 110 true false 300).code 0 = some bs
        ∧ (bs.length : Int) = 4
        ∧ unpack_opargs bs = some [(0, bs.length, 110, aDec)]
        ∧ (aDec : Int) = 300
        ∧ (Branch.init 4 4 110 true false (aDec : Int)).target
            = (Branch.init 4 4 110 true false 300).target := by
  have hae : 2 + 2 * arg_ext_needed 300 ≤ (4 : Int) := by
    norm_num [arg_ext_needed, bit_length, Nat.log2]
  exact ⟨⟨by norm_num, by norm_num, by norm_num, hae, by norm_num, by decide, by decide⟩,
    branch_code_roundtrip 4 4 110 true false 300 (by norm_num) (by norm_num)
      (by norm_num) hae (by norm_num) (by decide) (by decide)⟩

/-- Encoded-length deficit of a branch list against the 8-byte ceiling: the
termination measure of the `finish` fixed point. -/
def lenDeficit (brs : List Branch) : Nat :=
  (brs.map (fun b => (8 - b.length).toNat)).sum

/-- Well-formedness of the branches entering the `finish` fixed point, for a
size bound `K`: even offsets, lengths and targets; instruction lengths
between 2 and 8 bytes (at most 3 extension prefixes, as encodable branch
arguments fit 32 bits); and offset/target magnitudes that, together with the
remaining growth budget, stay below `K`. -/
def FinishInv (K : Int) (brs : List Branch) : Prop :=
  ∀ b ∈ brs, (2 ∣ b.offset ∧ 2 ∣ b.length ∧ 2 ∣ b.target)
    ∧ (2 ≤ b.length ∧ b.length ≤ 8)
    ∧ (|b.offset| + lenDeficit brs ≤ K ∧ |b.target| + lenDeficit brs ≤ K)

/-- Halving an even integer halves its magnitude. -/
theorem two_mul_abs_ediv_two {a : Int} (h : 2 ∣ a) : 2 * |a / 2| = |a| := by
  obtain ⟨c, rfl⟩ := h
  rw [Int.mul_ediv_cancel_left c (by norm_num), abs_mul]
  norm_num

/-- A branch with even offset, length and target has a well-defined
argument, bounded by its offset and target magnitudes. -/
theorem branch_arg_exists (b : Branch) (h2o : 2 ∣ b.offset) (h2l : 2 ∣ b.length)
    (h2t : 2 ∣ b.target) (hl8 : b.length ≤ 8) (hl0 : 0 ≤ b.length) :
    ∃ a, b.arg = some a ∧ 2 * |a| ≤ |b.target| + |b.offset| + 8 := by
  rw [Branch.arg]
  cases hrel : b.is_relative
  · simp only [Bool.false_eq_true, if_false]
    refine ⟨b.target / 2, ?_, ?_⟩
    · rw [offset2branch, if_pos (Int.emod_eq_zero_of_dvd h2t)]
    · rw [two_mul_abs_ediv_two h2t]
      have := abs_nonneg b.offset
      omega
  · simp only [if_true]
    refine ⟨|b.target - (b.offset + b.length)| / 2, ?_, ?_⟩
    · rw [offset2branch, if_pos]
      rw [Int.emod_eq_zero_of_dvd]
      rw [dvd_abs]
      omega
    · rw [two_mul_abs_ediv_two (by rw [dvd_abs]; omega)]
      have h1 : |b.target - (b.offset + b.length)| ≤ |b.target| + |b.offset| + b.length := by
        have := abs_sub_abs_le_abs_sub b.target (b.offset + b.length)
        have h2 := abs_add b.offset b.length
        have h3 := abs_sub b.target (b.offset + b.length)
        have h4 : |b.length| = b.length := abs_of_nonneg hl0
        omega
      have h5 : 0 ≤ |b.target - (b.offset + b.length)| := abs_nonneg _
      have h6 : |(|b.target - (b.offset + b.length)|)| = |b.target - (b.offset + b.length)| :=
        abs_of_nonneg h5
      omega

/-- `arg_ext_needed` is never below `-1`. -/
theorem neg_one_le_arg_ext_needed (a : Int) : -1 ≤ arg_ext_needed a := by
  rw [arg_ext_needed]
  omega

/-- `arg_ext_needed` only looks at the magnitude. -/
theorem arg_ext_needed_natAbs (a : Int) :
    arg_ext_needed ((a.natAbs : Nat) : Int) = arg_ext_needed a := by
  rw [arg_ext_needed, arg_ext_needed, Int.natAbs_ofNat]

/-- `adjust_length` on a well-formed, magnitude-bounded branch succeeds,
returns an even non-negative growth, grows the length to at most 8 bytes,
keeps the offset, and moves the target by at most the growth. -/
theorem adjust_length_ok (b : Branch) (M : Int)
    (h2o : 2 ∣ b.offset) (h2l : 2 ∣ b.length) (h2t : 2 ∣ b.target)
    (hl2 : 2 ≤ b.length) (hl8 : b.length ≤ 8)
    (hoM : |b.offset| ≤ M) (htM : |b.target| ≤ M) (hM : M + 4 < 4294967296) :
    ∃ change b2, b.adjust_length = some (change, b2)
      ∧ 0 ≤ change ∧ 2 ∣ change
      ∧ b2.offset = b.offset ∧ b2.opcode = b.opcode
      ∧ b2.is_relative = b.is_relative ∧ b2.is_backward = b.is_backward
      ∧ b2.length = b.length + change
      ∧ 2 ≤ b2.length ∧ b2.length ≤ 8 ∧ 2 ∣ b2.length
      ∧ 2 ∣ b2.target ∧ |b2.target| ≤ |b.target| + change
      ∧ (change = 0 → b2 = b) := by
  obtain ⟨a, ha, hab⟩ := branch_arg_exists b h2o h2l h2t hl8 (by omega)
  have habs : (a.natAbs : Int) = |a| := (Int.abs_eq_natAbs a).symm
  have hAE : arg_ext_needed a ≤ 3 := by
    rw [← arg_ext_needed_natAbs]
    apply arg_ext_needed_le
    rw [show 2 ^ (8 * 3 + 8) = 4294967296 by norm_num]
    have h1 : (a.natAbs : Int) < 4294967296 := by
      have := abs_nonneg b.offset
      have := abs_nonneg b.target
      omega
    exact_mod_cast h1
  have hAE1 := neg_one_le_arg_ext_needed a
  rw [Branch.adjust_length]
  simp only [ha]
  split
  · next hc =>
    refine ⟨_, _, rfl, by omega, by omega, rfl, rfl, rfl, rfl, ?_, ?_, ?_, ?_, ?_, ?_,
      fun h0 => absurd h0 (by omega)⟩
    · simp only []
      omega
    · simp only []
      omega
    · simp only []
      omega
    · simp only []
      omega
    · simp only []
      split <;> omega
    · simp only []
      split
      · have h1 := abs_add b.target (max 0 (2 + 2 * arg_ext_needed a - b.length))
        have h2 : |max 0 (2 + 2 * arg_ext_needed a - b.length)|
            = max 0 (2 + 2 * arg_ext_needed a - b.length) := abs_of_nonneg (by omega)
        omega
      · have := abs_nonneg b.target
        omega
  · next hc =>
    simp only [ne_eq, not_not] at hc
    exact ⟨0, b, rfl, le_refl 0, by omega, rfl, rfl, rfl, rfl, by omega, hl2, hl8,
      h2l, h2t, by omega, fun _ => rfl⟩

/-- `lenDeficit` of a cons. -/
theorem lenDeficit_cons (b : Branch) (l : List Branch) :
    lenDeficit (b :: l) = (8 - b.length).toNat + lenDeficit l := by
  simp [lenDeficit]

/-- A length-preserving reindexing map leaves the deficit unchanged. -/
theorem lenDeficit_mapIdx (l : List Branch) : ∀ (f : Nat → Branch → Branch),
    (∀ j c, (f j c).length = c.length) → lenDeficit (l.mapIdx f) = lenDeficit l := by
  induction l with
  | nil => intro f hf; rfl
  | cons a l ih =>
    intro f hf
    rw [List.mapIdx_cons, lenDeficit_cons, lenDeficit_cons, hf, ih _ (fun j c => hf (j + 1) c)]

/-- Replacing one element trades its deficit for the new element's. -/
theorem lenDeficit_set (l : List Branch) : ∀ (i : Nat) (b2 : Branch) (hi : i < l.length),
    lenDeficit (l.set i b2) + (8 - l[i].length).toNat
      = lenDeficit l + (8 - b2.length).toNat := by
  induction l with
  | nil => intro i b2 hi; simp at hi
  | cons a l ih =>
    intro i b2 hi
    cases i with
    | zero => simp [lenDeficit_cons]; omega
    | succ i =>
      simp only [List.set_cons_succ, lenDeficit_cons, List.getElem_cons_succ]
      have := ih i b2 (by simpa using hi)
      omega

/-- `Branch.adjust` by an even non-negative amount preserves length and
parities and moves magnitudes by at most the amount. -/
theorem adjust_props (c : Branch) (io ch : Int) (hch : 0 ≤ ch) (hd : 2 ∣ ch)
    (h2o : 2 ∣ c.offset) (h2t : 2 ∣ c.target) :
    (c.adjust io ch).length = c.length
    ∧ (c.adjust io ch).opcode = c.opcode
    ∧ 2 ∣ (c.adjust io ch).offset ∧ 2 ∣ (c.adjust io ch).target
    ∧ |(c.adjust io ch).offset| ≤ |c.offset| + ch
    ∧ |(c.adjust io ch).target| ≤ |c.target| + ch := by
  refine ⟨rfl, rfl, ?_, ?_, ?_, ?_⟩ <;> simp only [Branch.adjust] <;> split
  · omega
  · exact h2o
  · omega
  · exact h2t
  · have h1 := abs_add c.offset ch
    have h2 : |ch| = ch := abs_of_nonneg hch
    omega
  · omega
  · have h1 := abs_add c.target ch
    have h2 : |ch| = ch := abs_of_nonneg hch
    omega
  · omega

/-- One pass of the `finish` fixed-point loop over well-formed branches
succeeds, preserves the invariant, never increases the deficit, reports
`false` only when it changed nothing, and strictly decreases the deficit
whenever it reports an adjustment. -/
theorem finishInner_spec (K : Int) (hK : K + 4 < 4294967296) (ed : Editor) (i : Nat)
    (adj : Bool) (hJ : FinishInv K ed.branches) :
    ∃ ed2 adj2, finishInner ed i adj = some (ed2, adj2)
      ∧ FinishInv K ed2.branches
      ∧ ed2.branches.length = ed.branches.length
      ∧ lenDeficit ed2.branches ≤ lenDeficit ed.branches
      ∧ (adj2 = false → adj = false ∧ ed2 = ed)
      ∧ (adj = false → adj2 = true → lenDeficit ed2.branches < lenDeficit ed.branches) := by
  rw [finishInner]
  split
  · next hlt =>
    simp only [List.get_eq_getElem]
    obtain ⟨⟨j2o, j2l, j2t⟩, ⟨jl2, jl8⟩, jo, jt⟩ := hJ (ed.branches[i]) (List.getElem_mem hlt)
    have hΦ0 : (0 : Int) ≤ (lenDeficit ed.branches : Int) := Int.ofNat_nonneg _
    obtain ⟨change, b2, hal, hch0, hch2, hb2o, hb2op, hb2r, hb2b, hb2ld, hb2l2, hb2l8,
      hb2dl, hb2dt, hb2t, hb2z⟩ :=
      adjust_length_ok (ed.branches[i]) K j2o j2l j2t jl2 jl8 (by omega) (by omega) hK
    simp only [hal]
    split
    · next hcne =>
      have hchpos : 0 < change := by omega
      have hflen : ∀ (j : Nat) (c : Branch),
          ((fun j c => if j = i then c else c.adjust (ed.branches[i]).offset change) j c).length
            = c.length := by
        intro j c
        dsimp only
        split
        · rfl
        · rfl
      have hΦ : lenDeficit ((ed.branches.set i b2).mapIdx
            (fun j c => if j = i then c else c.adjust (ed.branches[i]).offset change))
            + change.toNat = lenDeficit ed.branches := by
        rw [lenDeficit_mapIdx _ _ hflen]
        have hset := lenDeficit_set ed.branches i b2 hlt
        omega
      have hJ2 : FinishInv K ((ed.branches.set i b2).mapIdx
          (fun j c => if j = i then c else c.adjust (ed.branches[i]).offset change)) := by
        intro x hx
        rw [List.mem_iff_getElem] at hx
        obtain ⟨j, hj, hxe⟩ := hx
        have hj2 : j < ed.branches.length := by
          simpa [List.length_mapIdx, List.length_set] using hj
        have hxval : x = if j = i then b2
            else (ed.branches[j]).adjust (ed.branches[i]).offset change := by
          rw [← hxe, List.getElem_mapIdx, List.getElem_set]
          by_cases hji : j = i
          · simp [hji]
          · simp [hji, Ne.symm hji]
        obtain ⟨⟨c2o, c2l, c2t⟩, ⟨cl2, cl8⟩, co, ct⟩ :=
          hJ (ed.branches[j]) (List.getElem_mem hj2)
        by_cases hji : j = i
        · subst hji
          rw [hxval, if_pos rfl]
          exact ⟨⟨hb2o ▸ j2o, hb2dl, hb2dt⟩, ⟨hb2l2, hb2l8⟩,
            ⟨by rw [hb2o]; omega, by omega⟩⟩
        · rw [hxval, if_neg hji]
          obtain ⟨haL, haOp, hado, hadt, habo, habt⟩ :=
            adjust_props (ed.branches[j]) (ed.branches[i]).offset change hch0 hch2 c2o c2t
          refine ⟨⟨hado, by rw [haL]; exact c2l, hadt⟩,
            ⟨by rw [haL]; exact cl2, by rw [haL]; exact cl8⟩, ⟨by omega, by omega⟩⟩
      obtain ⟨ed2, adj2, hrec, hJr, hlenr, hΦr, hfr, hsr⟩ :=
        finishInner_spec K hK
          { ed with
            patch := pySliceReplace ed.patch (ed.branches[i]).offset (ed.branches[i]).offset
              (List.replicate change.toNat 0),
            branches := (ed.branches.set i b2).mapIdx
              (fun j c => if j = i then c else c.adjust (ed.branches[i]).offset change),
            lines := ed.lines.map (fun l => l.adjust (ed.branches[i]).offset change),
            ex_table := ed.ex_table.map (fun e => e.adjust (ed.branches[i]).offset change) }
          (i + 1) true hJ2
      refine ⟨ed2, adj2, hrec, hJr, ?_, ?_, ?_, ?_⟩
      · rw [hlenr]
        simp [List.length_mapIdx, List.length_set]
      · have h1 : lenDeficit ed2.branches ≤ lenDeficit ((ed.branches.set i b2).mapIdx
            (fun j c => if j = i then c else c.adjust (ed.branches[i]).offset change)) := hΦr
        omega
      · intro hf
        exact absurd (hfr hf).1 (by simp)
      · intro _ _
        have h1 : lenDeficit ed2.branches ≤ lenDeficit ((ed.branches.set i b2).mapIdx
            (fun j c => if j = i then c else c.adjust (ed.branches[i]).offset change)) := hΦr
        omega
    · next hceq =>
      exact finishInner_spec K hK ed (i + 1) adj hJ
  · next hge =>
    exact ⟨ed, adj, rfl, hJ, rfl, le_refl _, fun ha => ⟨ha, rfl⟩,
      fun h1 h2 => absurd (h1 ▸ h2) (by simp)⟩
termination_by ed.branches.length - i
decreasing_by
  all_goals
    try simp only [List.length_mapIdx, List.length_set]
  all_goals omega

/-- The `while any_adjusted` loop reaches a stable state within any fuel
bound exceeding the deficit of its well-formed branches. -/
theorem finishLoop_out (K : Int) (hK : K + 4 < 4294967296) :
    ∀ (fuel : Nat) (ed : Editor), FinishInv K ed.branches →
      lenDeficit ed.branches < fuel →
      ∃ ed2, finishLoop fuel ed = .out ed2 := by
  intro fuel
  induction fuel with
  | zero => intro ed _ h; omega
  | succ fuel ih =>
    intro ed hJ hfuel
    rw [finishLoop]
    obtain ⟨ed2, adj2, hrec, hJ2, _, hΦ2, hfalse, hstrict⟩ := finishInner_spec K hK ed 0 false hJ
    rw [hrec]
    cases adj2 with
    | false => exact ⟨ed2, rfl⟩
    | true =>
      exact ih ed2 hJ2 (by have := hstrict rfl rfl; omega)

/-- C7: the branch-growth fixed-point loop of `Editor.finish` terminates on
every editor whose (finitely many) branches are well formed for some size
bound `K` below `2^32`: each branch's encoded length never decreases and is
bounded by 8 bytes (at most 3 extension prefixes), so the total deficit
`lenDeficit` strictly decreases with every adjusting pass, and fuel
`lenDeficit + 1` already reaches the stable state. -/
theorem finish_loop_terminates (ed : Editor) (K : Int)
    (hJ : FinishInv K ed.branches) (hK : K + 4 < 4294967296) :
    ∃ ed2, finishLoop (lenDeficit ed.branches + 1) ed = LoopResult.out ed2 :=
  finishLoop_out K hK _ ed hJ (by omega)

/-- Witness for C7: one relative forward branch of length 2 with target
1000 (which needs growth) reaches the fixed point within the deficit
bound. -/
theorem finish_loop_terminates_witness :
    FinishInv 1006 [Branch.mk 0 2 110 true false 1000]
    ∧ (1006 : Int) + 4 < 4294967296
    ∧ ∃ ed2, finishLoop (lenDeficit [Branch.mk 0 2 110 true false 1000] + 1)
        (Editor.mk (CodeObj.mk [] [] [] 1 0 [] []) [] [Branch.mk 0 2 110 true false 1000]
          [] [] [] 0 false) = LoopResult.out ed2 := by
  have hJ : FinishInv 1006 [Branch.mk 0 2 110 true false 1000] := by
    intro b hb
    rw [List.mem_singleton] at hb
    subst hb
    refine ⟨⟨by decide, by decide, by decide⟩, ⟨by decide, by decide⟩, by decide, by decide⟩
  exact ⟨hJ, by norm_num,
    finish_loop_terminates (Editor.mk (CodeObj.mk [] [] [] 1 0 [] []) []
      [Branch.mk 0 2 110 true false 1000] [] [] [] 0 false) 1006 hJ (by norm_num)⟩
